import Mathlib

/-!
Verification of the HitPlay release-year resolution engine.

This file gives a shallow embedding, in Lean 4, of the metadata/release-year
resolution code of the HitPlay repository (files `main.py` and `wiki.py`) and
proves or refutes the stated properties of that code.

Strings are modelled as `List Char` (`Str` below); Python string operations
(`strip`, `split`, `splitlines`, lexicographic `min`, regular-expression
searches of the concrete patterns appearing in the source) are embedded as
executable functions on `Str`.  Network interactions are modelled as explicit
oracle parameters.  Character classes (`\s`, `\w`, `\d`, lower-casing) are
embedded with their ASCII meaning, which is the fragment exercised by this
code.
-/

namespace HitPlay

/-- Python strings, modelled as lists of characters. -/
abbrev Str := List Char

/-- ASCII fragment of Python's regex class `\s` and of `str.strip()`
(space, tab, newline, carriage return, vertical tab, form feed). -/
def isSpaceChar (c : Char) : Bool :=
  c.toNat = 32 || c.toNat = 9 || c.toNat = 10 || c.toNat = 13 ||
    c.toNat = 11 || c.toNat = 12

/-- Python `str.isdigit` / regex `[0-9]` on ASCII characters. -/
def isDigitChar (c : Char) : Bool :=
  48 ≤ c.toNat && c.toNat ≤ 57

/-- ASCII fragment of Python's regex class `\w` (letters, digits, underscore). -/
def isWordChar (c : Char) : Bool :=
  (65 ≤ c.toNat && c.toNat ≤ 90) || (97 ≤ c.toNat && c.toNat ≤ 122) ||
    isDigitChar c || c = '_'

/-- ASCII lower-casing of one character (Python `str.lower`). -/
def lowerChar (c : Char) : Char :=
  if 65 ≤ c.toNat && c.toNat ≤ 90 then Char.ofNat (c.toNat + 32) else c

/-- ASCII lower-casing of a string (Python `str.lower`). -/
def lowerStr (s : Str) : Str := s.map lowerChar

/-- Drop the trailing characters satisfying `p`. -/
def dropTrailing (p : Char → Bool) (s : Str) : Str :=
  (s.reverse.dropWhile p).reverse

/-- Python `str.strip()` (ASCII whitespace). -/
def pyStrip (s : Str) : Str :=
  dropTrailing isSpaceChar (s.dropWhile isSpaceChar)

/-- Python `str.strip(chars)` for an explicit character set. -/
def pyStripChars (cs : List Char) (s : Str) : Str :=
  dropTrailing (cs.contains ·) (s.dropWhile (cs.contains ·))

/-- Strict lexicographic order on strings by code point, as Python `<`. -/
def lexLt : Str → Str → Bool
| [], [] => false
| [], _ :: _ => true
| _ :: _, [] => false
| a :: as, b :: bs =>
    if a.toNat < b.toNat then true
    else if b.toNat < a.toNat then false
    else lexLt as bs

/-- Fold step of Python `min` over strings: keep the first minimum. -/
def pyMinAux : Str → List Str → Str
| best, [] => best
| best, x :: xs => pyMinAux (if lexLt x best then x else best) xs

/-- Python `min` over a nonempty list of strings (callers guard emptiness;
on `[]` we return the empty string, a case the embedded code never reaches). -/
def pyMin : List Str → Str
| [] => []
| x :: xs => pyMinAux x xs

/-- Numeric value of a digit string (used only to state numeric-order facts). -/
def digitsToNat (s : Str) : Nat :=
  s.foldl (fun acc c => acc * 10 + (c.toNat - 48)) 0

/-- A year value in the sense of the spec: exactly 4 ASCII digits. -/
def isDigits4 (s : Str) : Prop :=
  s.length = 4 ∧ s.all isDigitChar = true

instance (s : Str) : Decidable (isDigits4 s) := by
  unfold isDigits4; infer_instance

/-- Embeds `main.py` `_extract_year`: year = part of the date string before the
first `-`; returned iff it is exactly 4 digits, else empty. -/
def extract_year (date_str : Str) : Str :=
  if date_str = [] then []
  else
    let year := date_str.takeWhile (· ≠ '-')
    if year.length = 4 && year.all isDigitChar then year else []

/-- Word-boundary test for the position before a match: the previous
character (`none` at string start) must not be a word character. -/
def boundaryBefore : Option Char → Bool
| none => true
| some c => !isWordChar c

/-- Try to match the regex `\b(19[0-9]\x7b2\x7d|20[0-9]\x7b2\x7d)\b` of
`main.py` at the current position, given the previous character. -/
def yearHere (prev : Option Char) : Str → Option Str
| c1 :: c2 :: c3 :: c4 :: rest =>
    if boundaryBefore prev &&
        (((c1 = '1' && c2 = '9') || (c1 = '2' && c2 = '0')) &&
          (isDigitChar c3 && isDigitChar c4)) &&
        (rest = [] || !isWordChar (rest.headD ' ')) then
      some [c1, c2, c3, c4]
    else none
| _ => none

/-- Embeds `re.search` of the year pattern: first match, scanning left to right. -/
def findYear : Option Char → Str → Option Str
| _, [] => none
| prev, c :: rest =>
    match yearHere prev (c :: rest) with
    | some y => some y
    | none => findYear (some c) rest

/-- Embeds `re.findall` of the year pattern: all non-overlapping matches, scanning
left to right and resuming right after each 4-character match (a match
always has 4 characters, so the second `some` branch is unreachable). -/
def findAllYears : Option Char → Str → List Str
| _, [] => []
| prev, c1 :: c2 :: c3 :: c4 :: t =>
    match yearHere prev (c1 :: c2 :: c3 :: c4 :: t) with
    | some y => y :: findAllYears (some c4) t
    | none => findAllYears (some c1) (c2 :: c3 :: c4 :: t)
| _, c :: rest => findAllYears (some c) rest

/-- Embeds `main.py` `_extract_year_from_text`: first `\b(19..|20..)\b` match. -/
def extract_year_from_text (text : Str) : Str :=
  if text = [] then []
  else
    match findYear none text with
    | some y => y
    | none => []

/-- Embeds `main.py` `_extract_earliest_year_from_text`: minimum of all
`\b(19..|20..)\b` matches (Python `min`, lexicographic). -/
def extract_earliest_year_from_text (text : Str) : Str :=
  if text = [] then []
  else
    match findAllYears none text with
    | [] => []
    | y :: ys => pyMin (y :: ys)

/-- The qualifier terms of `main.py` `_strip_title_parenthetical_terms`
(alternatives of the regex, already lower-cased). -/
def qualifierTerms : List Str :=
  ["remix".data, "remastered".data, "anniversary".data, "version".data,
   "live".data, "single".data, "album".data, "stereo".data, "mono".data,
   "edition".data]

/-- Case-insensitive prefix test against an already lower-case pattern. -/
def ciStartsWith : Str → Str → Bool
| _, [] => true
| [], _ :: _ => false
| c :: cs, p :: ps => lowerChar c = p && ciStartsWith cs ps

/-- Does one of the qualifier terms match at the head of `s`, with a word
boundary after it (regex `(?:term)\b`)? -/
def termHereOk (s : Str) : Bool :=
  qualifierTerms.any fun t =>
    ciStartsWith s t &&
      ((s.drop t.length).isEmpty || !isWordChar ((s.drop t.length).headD ' '))

/-- Scan for `\b(?:term)\b` inside a parenthetical body; the flag records
whether the previous character (initially the opening parenthesis) is a
non-word character, i.e. whether a word boundary precedes this position. -/
def hasBoundedTermAux : Bool → Str → Bool
| _, [] => false
| prevNonWord, c :: rest =>
    (prevNonWord && termHereOk (c :: rest)) || hasBoundedTermAux (!isWordChar c) rest

/-- The parenthetical-content test `[^)]*\b(?:terms)\b[^)]*` of the
qualifier-stripping regex (the character before the body is `(`). -/
def bodyHasTerm (body : Str) : Bool := hasBoundedTermAux true body

/-- Length of the match of `\s*\([^)]*\b(?:terms)\b[^)]*\)\s*` at the start
of `s`, if any (greedy `\s*`, body up to the first `)`). -/
def tryMatch (s : Str) : Option Nat :=
  let w := s.takeWhile isSpaceChar
  match s.drop w.length with
  | '(' :: r =>
      let body := r.takeWhile (· ≠ ')')
      match r.drop body.length with
      | ')' :: r3 =>
          if bodyHasTerm body then
            some (w.length + 1 + body.length + 1 + (r3.takeWhile isSpaceChar).length)
          else none
      | _ => none
  | _ => none

/-- Embeds `re.sub` of the qualifier parenthetical pattern by a single space:
leftmost, non-overlapping matches, each replaced by `' '`. -/
def stripParenPass : Str → Str
| [] => []
| c :: rest =>
    match tryMatch (c :: rest) with
    | some n => ' ' :: stripParenPass (rest.drop (n - 1))
    | none => c :: stripParenPass rest
termination_by s => s.length
decreasing_by
  all_goals simp_wf
  all_goals omega

/-- Fuel-indexed twin of `stripParenPass` (each scan step consumes at least
one character, so `s.length` fuel suffices); it is definitionally
reducible, which `stripParenPass_eq_fuel` exploits to evaluate the scan on
concrete inputs. -/
def stripParenFuel : Nat → Str → Str
| 0, _ => []
| _ + 1, [] => []
| fuel + 1, c :: rest =>
    match tryMatch (c :: rest) with
    | some n => ' ' :: stripParenFuel fuel (rest.drop (n - 1))
    | none => c :: stripParenFuel fuel rest

theorem stripParenPass_eq_fuel :
    ∀ (s : Str) (fuel : Nat), s.length ≤ fuel →
      stripParenPass s = stripParenFuel fuel s := by
  intro s
  induction s using stripParenPass.induct with
  | case1 =>
      intro fuel _
      cases fuel <;> simp [stripParenPass, stripParenFuel]
  | case2 c rest n hmatch ih =>
      intro fuel hf
      cases fuel with
      | zero => simp at hf
      | succ f =>
          have hlen : (List.drop (n - 1) rest).length ≤ f := by
            simp at hf ⊢
            omega
          simp only [stripParenPass, stripParenFuel, hmatch]
          rw [ih f hlen]
  | case3 c rest hmatch ih =>
      intro fuel hf
      cases fuel with
      | zero => simp at hf
      | succ f =>
          have hlen : rest.length ≤ f := by
            simp at hf
            omega
          simp only [stripParenPass, stripParenFuel, hmatch]
          rw [ih f hlen]

/-- Fact: `dropWhile` never lengthens a list. -/
theorem length_dropWhile_le (p : Char → Bool) (l : Str) :
    (l.dropWhile p).length ≤ l.length := by
  induction l with
  | nil => simp [List.dropWhile]
  | cons a l ih =>
      simp only [List.dropWhile]
      split
      · exact Nat.le_succ_of_le ih
      · exact Nat.le_refl _

/-- Is the first character of `s` a whitespace character? -/
def headSpace (s : Str) : Bool :=
  match s.head? with
  | some d => isSpaceChar d
  | none => false

/-- One-pass scan for `re.sub(r"\s\x7b2,\x7d", " ", ·)`: inside a
whitespace run, all characters but the last are dropped; the last character
of a run becomes a single `' '` when the run had length at least two
(`inRun`), and stays itself for a lone whitespace character. -/
def collapseWsAux : Bool → Str → Str
| _, [] => []
| inRun, c :: rest =>
    if isSpaceChar c then
      if headSpace rest then collapseWsAux true rest
      else (if inRun then ' ' else c) :: collapseWsAux false rest
    else c :: collapseWsAux false rest

/-- Embeds `re.sub(r"\s\x7b2,\x7d", " ", ·)`: each maximal run of at least two
whitespace characters becomes a single space. -/
def collapseWsPass (s : Str) : Str := collapseWsAux false s

/-- Embeds `main.py` `_strip_title_parenthetical_terms` on a (non-`None`) string:
remove qualifier parentheticals, collapse whitespace runs, strip. -/
def strip_title_parenthetical_terms (title : Str) : Str :=
  if title = [] then title
  else pyStrip (collapseWsPass (stripParenPass title))

/-- Embeds `main.py` `_strip_title_parenthetical_terms` including the `None` case:
a falsy argument (`None` here, and `""` as `some []`) is returned unchanged. -/
def strip_title_parenthetical_terms_opt : Option Str → Option Str
| none => none
| some t => some (strip_title_parenthetical_terms t)

/-! ## MusicBrainz recording-search client (`main.py` `fetch_musicbrainz_year`) -/

/-- One release of a MusicBrainz recording.  `releaseGroupSecondaryTypes`
is `some sts` when the JSON release carries a `release-group` object (whose
`secondary-types` list, defaulting to `[]`, is `sts`), and `none` when the
`release-group` key is absent — in that case the Python code's default
`.get("release-group", [])` is a list and the subsequent
`.get("secondary-types", [])` raises `AttributeError`. -/
structure MBRelease where
  date : Str
  releaseGroupSecondaryTypes : Option (List Str)
deriving DecidableEq

/-- One recording returned by the MusicBrainz recording search. -/
structure MBRecording where
  firstReleaseDate : Str
  releases : List MBRelease
deriving DecidableEq

/-- The inner fallback loop of `fetch_musicbrainz_year`: first release date
that yields a 4-digit year, else empty. -/
def firstReleaseYear : List MBRelease → Str
| [] => []
| rel :: rest =>
    let y := extract_year rel.date
    if y.isEmpty then firstReleaseYear rest else y

/-- The recording loop of `fetch_musicbrainz_year` (the code after the
network fetch, which sits outside the `try` block).  Recordings with an
empty `releases` list are skipped (`continue`); the first release's
`release-group` is then accessed, raising `AttributeError` (modelled as
`Except.error`) when that JSON key is absent; the loop over
`secondary-types` in the source only `continue`s its own iterations and so
filters nothing and is otherwise dead.  A year is taken from the
recording's first-release-date, else from the first release date that
yields one, and the lexicographically (= numerically, on 4-digit strings)
smallest year wins. -/
def mbRecordingsBestYear : List MBRecording → Str → Except Str Str
| [], best => .ok best
| rec :: rest, best =>
    match rec.releases with
    | [] => mbRecordingsBestYear rest best
    | rel0 :: _ =>
        match rel0.releaseGroupSecondaryTypes with
        | none => .error "AttributeError: list object has no attribute get".data
        | some _ =>
            let year0 := extract_year rec.firstReleaseDate
            let year := if year0.isEmpty then firstReleaseYear rec.releases else year0
            let best1 :=
              if !year.isEmpty && (best.isEmpty || lexLt year best) then year else best
            mbRecordingsBestYear rest best1

/-- The classes of network failure distinguished by the retry logic. -/
inductive NetFailure
| reset
| http503
| other
deriving DecidableEq

/-- Outcome of one MusicBrainz network attempt. -/
inductive MBOutcome
| ok (recs : List MBRecording)
| fail (f : NetFailure)

/-- The `for attempt in range(2)` retry loop of `fetch_musicbrainz_year`:
attempt 0, and — only after a connection-reset or HTTP-503 failure —
attempt 1.  Returns the fetched recordings (or `none` when the loop gives
up) together with the number of network attempts made. -/
def mbFetchLoop (att : Nat → MBOutcome) : Option (List MBRecording) × Nat :=
  match att 0 with
  | .ok recs => (some recs, 1)
  | .fail f =>
      if f = .reset || f = .http503 then
        match att 1 with
        | .ok recs => (some recs, 2)
        | .fail _ => (none, 2)
      else (none, 1)

/-- Embeds `main.py` `fetch_musicbrainz_year`, with the network modelled as the
attempt oracle `att`.  A failed fetch returns the empty string; a
successful fetch runs the recording loop, whose `AttributeError` (see
`mbRecordingsBestYear`) propagates out of the client. -/
def fetch_musicbrainz_year (artist title : Str) (att : Nat → MBOutcome) :
    Except Str Str × Nat :=
  if artist.isEmpty || title.isEmpty then (.ok [], 0)
  else
    match mbFetchLoop att with
    | (none, n) => (.ok [], n)
    | (some recs, n) => (mbRecordingsBestYear recs [], n)

/-! ## Year-resolution orchestrator (`main.py` `get_audio_metadata`) -/

/-- Result of the metadata resolution for one track, together with the
query strings passed to the external clients and whether the
recording-database client was called. -/
structure TrackMeta where
  artist : Str
  title : Str
  year : Str
  queryArtist : Str
  queryTitle : Str
  mbCalled : Bool
deriving DecidableEq

/-- The FLAC/MP3 path of `main.py` `get_audio_metadata`, with the two
network clients abstracted as oracles `wikiFetch` and `mbFetch` (the real
clients return either the empty string or a 4-digit year).  Tag reading
itself (mutagen) is external glue; its outputs are the four tag strings. -/
def get_audio_metadata (artistTag titleTag copyrightTag dateTag : Str)
    (wikiFetch mbFetch : Str → Str → Str) : TrackMeta :=
  let title := strip_title_parenthetical_terms titleTag
  let copyright_year := extract_year_from_text copyrightTag
  let date_year := extract_year dateTag
  let year_candidates := [copyright_year, date_year].filter (fun y => !y.isEmpty)
  let year0 := if year_candidates.isEmpty then [] else pyMin year_candidates
  let qa := pyStrip artistTag
  let qt := pyStrip title
  let wikipedia_year := wikiFetch qa qt
  let res :=
    if !wikipedia_year.isEmpty then
      (pyMin (([year0, wikipedia_year]).filter (fun y => !y.isEmpty)), false)
    else
      let musicbrainz_year := mbFetch qa qt
      (if !musicbrainz_year.isEmpty then
        pyMin (([year0, musicbrainz_year]).filter (fun y => !y.isEmpty))
      else year0, true)
  let year1 := res.1
  let year2 := if !year1.isEmpty && !(year1.all isDigitChar) then [] else year1
  ⟨qa, qt, pyStrip year2, qa, qt, res.2⟩

/-- Spec-side comparator (for refinement comparison, following the spec's
words): the numerically smallest non-empty candidate, empty if none. -/
def smallestNonemptyByNat (cands : List Str) : Str :=
  match cands.filter (fun y => !y.isEmpty) with
  | [] => []
  | x :: xs => xs.foldl (fun a b => if digitsToNat b < digitsToNat a then b else a) x

/-! ## Basic facts about characters, `pyStrip` and `pyMin` -/

theorem isSpaceChar_of_isDigitChar {c : Char} (h : isDigitChar c = true) :
    isSpaceChar c = false := by
  simp only [isDigitChar, Bool.and_eq_true, decide_eq_true_eq] at h
  simp only [isSpaceChar, Bool.or_eq_false_iff, decide_eq_false_iff_not]
  omega

theorem dropWhile_eq_self_of_all_not {p : Char → Bool} {s : Str}
    (h : ∀ c ∈ s, p c = false) : s.dropWhile p = s := by
  cases s with
  | nil => rfl
  | cons a l =>
      rw [List.dropWhile_cons_of_neg]
      simp [h a (by simp)]

/-- Fact: `str.strip()` is the identity on all-digit strings. -/
theorem pyStrip_of_all_digits {s : Str} (h : s.all isDigitChar = true) :
    pyStrip s = s := by
  have hns : ∀ c ∈ s, isSpaceChar c = false := by
    intro c hc
    exact isSpaceChar_of_isDigitChar (by simpa using List.all_eq_true.mp h c hc)
  unfold pyStrip dropTrailing
  rw [dropWhile_eq_self_of_all_not hns,
      dropWhile_eq_self_of_all_not (by intro c hc; exact hns c (by simpa using hc)),
      List.reverse_reverse]

theorem pyMinAux_mem (best : Str) (xs : List Str) :
    pyMinAux best xs = best ∨ pyMinAux best xs ∈ xs := by
  induction xs generalizing best with
  | nil => left; rfl
  | cons x xs ih =>
      simp only [pyMinAux]
      rcases ih (if lexLt x best then x else best) with h | h
      · rw [h]; split
        · right; simp
        · left; rfl
      · right; simp [h]

theorem pyMin_mem {l : List Str} (h : l ≠ []) : pyMin l ∈ l := by
  cases l with
  | nil => exact absurd rfl h
  | cons x xs =>
      simp only [pyMin]
      rcases pyMinAux_mem x xs with h | h
      · simp [h]
      · simp [h]

/-- Decompose a 4-character string. -/
theorem exists_four_of_length {s : Str} (h : s.length = 4) :
    ∃ c0 c1 c2 c3, s = [c0, c1, c2, c3] := by
  match s, h with
  | [c0, c1, c2, c3], _ => exact ⟨c0, c1, c2, c3, rfl⟩

/-- On 4-digit strings, Python's lexicographic `<` is the numeric order. -/
theorem lexLt_iff_digitsToNat {a b : Str} (ha : isDigits4 a) (hb : isDigits4 b) :
    lexLt a b = true ↔ digitsToNat a < digitsToNat b := by
  obtain ⟨a0, a1, a2, a3, rfl⟩ := exists_four_of_length ha.1
  obtain ⟨b0, b1, b2, b3, rfl⟩ := exists_four_of_length hb.1
  have hda := ha.2
  have hdb := hb.2
  simp only [List.all_cons, List.all_nil, Bool.and_eq_true, isDigitChar,
    decide_eq_true_eq] at hda hdb
  simp only [lexLt, digitsToNat, List.foldl]
  split_ifs <;> simp <;> omega

/-- Fact: `digitsToNat` of a 4-digit string is below 10000; with first digits
`19` or `20` it lies in [1900, 2099] (used via `yearHere_spec`). -/
theorem yearHere_spec {prev : Option Char} {s : Str} {y : Str}
    (h : yearHere prev s = some y) :
    isDigits4 y ∧ 1900 ≤ digitsToNat y ∧ digitsToNat y ≤ 2099 := by
  match s, h with
  | c1 :: c2 :: c3 :: c4 :: rest, h =>
      simp only [yearHere] at h
      split at h
      case isTrue hc =>
        simp only [Option.some.injEq] at h
        subst h
        simp only [Bool.and_eq_true, Bool.or_eq_true, decide_eq_true_eq,
          isDigitChar] at hc
        obtain ⟨⟨_, ⟨h12, h3, h4⟩⟩, _⟩ := hc
        constructor
        · constructor
          · rfl
          · simp only [List.all_cons, List.all_nil, Bool.and_eq_true, isDigitChar,
              decide_eq_true_eq]
            rcases h12 with ⟨rfl, rfl⟩ | ⟨rfl, rfl⟩ <;> simp <;> omega
        · simp only [digitsToNat, List.foldl]
          rcases h12 with ⟨rfl, rfl⟩ | ⟨rfl, rfl⟩ <;> simp <;> omega
      case isFalse => exact absurd h (by simp)

theorem findYear_spec {prev : Option Char} {s : Str} {y : Str}
    (h : findYear prev s = some y) :
    isDigits4 y ∧ 1900 ≤ digitsToNat y ∧ digitsToNat y ≤ 2099 := by
  induction s generalizing prev with
  | nil => exact absurd h (by simp [findYear])
  | cons c rest ih =>
      simp only [findYear] at h
      cases hy : yearHere prev (c :: rest) with
      | some y' => rw [hy] at h; cases h; exact yearHere_spec hy
      | none => rw [hy] at h; exact ih h

theorem findAllYears_spec {prev : Option Char} {s : Str} :
    ∀ y ∈ findAllYears prev s,
      isDigits4 y ∧ 1900 ≤ digitsToNat y ∧ digitsToNat y ≤ 2099 := by
  induction prev, s using findAllYears.induct with
  | case1 prev => simp [findAllYears]
  | case2 prev c1 c2 c3 c4 t y hy ih =>
      intro z hz
      simp only [findAllYears, hy] at hz
      rcases List.mem_cons.mp hz with rfl | hz
      · exact yearHere_spec hy
      · exact ih z hz
  | case3 prev c1 c2 c3 c4 t hy ih =>
      intro z hz
      simp only [findAllYears, hy] at hz
      exact ih z hz
  | case4 prev c rest hshape ih =>
      intro z hz
      cases rest with
      | nil => exact ih z hz
      | cons a r =>
          cases r with
          | nil => exact ih z hz
          | cons b r2 =>
              cases r2 with
              | nil => exact ih z hz
              | cons d t => exact (hshape a b d t rfl).elim

/-- Fact: `_extract_year` returns the empty string or exactly 4 ASCII digits
(with no constraint on the numeric range). -/
theorem extract_year_spec (s : Str) :
    extract_year s = [] ∨ isDigits4 (extract_year s) := by
  unfold extract_year
  split
  · left; rfl
  · dsimp only
    split
    case isTrue h =>
      right
      simp only [Bool.and_eq_true, decide_eq_true_eq] at h
      exact ⟨h.1, h.2⟩
    case isFalse => left; rfl

/-- Fact: `_extract_year_from_text` returns the empty string or a 4-digit year
in [1900, 2099]. -/
theorem extract_year_from_text_spec (s : Str) :
    extract_year_from_text s = [] ∨
      (isDigits4 (extract_year_from_text s) ∧
        1900 ≤ digitsToNat (extract_year_from_text s) ∧
        digitsToNat (extract_year_from_text s) ≤ 2099) := by
  unfold extract_year_from_text
  split
  · left; rfl
  · cases hf : findYear none s with
    | none => left; rfl
    | some y => right; simpa using findYear_spec hf

/-- Fact: `_extract_earliest_year_from_text` returns the empty string or a
4-digit year in [1900, 2099]. -/
theorem extract_earliest_year_from_text_spec (s : Str) :
    extract_earliest_year_from_text s = [] ∨
      (isDigits4 (extract_earliest_year_from_text s) ∧
        1900 ≤ digitsToNat (extract_earliest_year_from_text s) ∧
        digitsToNat (extract_earliest_year_from_text s) ≤ 2099) := by
  unfold extract_earliest_year_from_text
  split
  · left; rfl
  · cases hf : findAllYears none s with
    | nil => left; rfl
    | cons y ys =>
        right
        have hmem : pyMin (y :: ys) ∈ y :: ys := pyMin_mem (by simp)
        have := @findAllYears_spec none s
        rw [hf] at this
        exact this _ hmem

/-! ## The candidate-combination steps of `get_audio_metadata` compute the
numerically smallest non-empty candidate -/

theorem sNBN2_cases (a b : Str) :
    smallestNonemptyByNat [a, b] = a ∨ smallestNonemptyByNat [a, b] = b ∨
      smallestNonemptyByNat [a, b] = [] := by
  unfold smallestNonemptyByNat
  cases a with
  | nil =>
      cases b with
      | nil => simp
      | cons x xs => simp [List.filter]
  | cons y ys =>
      cases b with
      | nil => simp [List.filter]
      | cons x xs =>
          simp only [List.filter, List.isEmpty_cons, Bool.not_false,
            List.foldl_cons, List.foldl_nil]
          split <;> simp_all

theorem code_min2_eq_sNBN (a b : Str) (ha : a = [] ∨ isDigits4 a)
    (hb : b = [] ∨ isDigits4 b) :
    (if (([a, b]).filter (fun y => !y.isEmpty)).isEmpty then []
     else pyMin (([a, b]).filter (fun y => !y.isEmpty))) =
      smallestNonemptyByNat [a, b] := by
  cases a with
  | nil =>
      cases b with
      | nil => rfl
      | cons x xs => simp [smallestNonemptyByNat, pyMin, pyMinAux, List.filter]
  | cons y ys =>
      cases b with
      | nil => simp [smallestNonemptyByNat, pyMin, pyMinAux, List.filter]
      | cons x xs =>
          have ha4 : isDigits4 (y :: ys) := by
            rcases ha with h | h
            · exact absurd h (by simp)
            · exact h
          have hb4 : isDigits4 (x :: xs) := by
            rcases hb with h | h
            · exact absurd h (by simp)
            · exact h
          simp only [List.filter, List.isEmpty_cons, Bool.not_false,
            smallestNonemptyByNat, pyMin, pyMinAux, List.foldl_cons, List.foldl_nil,
            Bool.false_eq_true, if_false]
          by_cases hlt : lexLt (x :: xs) (y :: ys) = true
          · rw [if_pos hlt, if_pos ((lexLt_iff_digitsToNat hb4 ha4).mp hlt)]
          · rw [if_neg hlt, if_neg (fun hc =>
              hlt ((lexLt_iff_digitsToNat hb4 ha4).mpr hc))]

theorem sNBN2_digits (a b : Str) (ha : a = [] ∨ isDigits4 a)
    (hb : b = [] ∨ isDigits4 b) :
    smallestNonemptyByNat [a, b] = [] ∨ isDigits4 (smallestNonemptyByNat [a, b]) := by
  rcases sNBN2_cases a b with h | h | h <;> rw [h]
  · exact ha
  · exact hb
  · left; rfl

theorem code_combine_eq_sNBN (seed x : Str) (hs : seed = [] ∨ isDigits4 seed)
    (hx : x = [] ∨ isDigits4 x) :
    (if !x.isEmpty then pyMin (([seed, x]).filter (fun y => !y.isEmpty)) else seed) =
      smallestNonemptyByNat [seed, x] := by
  cases x with
  | nil =>
      simp only [List.isEmpty_nil, Bool.not_true, Bool.false_eq_true, if_false,
        smallestNonemptyByNat]
      cases seed with
      | nil => simp
      | cons y ys => simp [List.filter]
  | cons c cs =>
      rw [← code_min2_eq_sNBN seed (c :: cs) hs hx]
      have hne : (([seed, c :: cs]).filter (fun y => !y.isEmpty)).isEmpty = false := by
        cases seed <;> simp [List.filter]
      simp [hne]

/-- Main resolution lemma: the resolved year of `get_audio_metadata` is
the numerically smallest non-empty candidate, and the recording-database
client is called exactly when the Wikipedia candidate is empty. -/
theorem get_audio_metadata_resolution
    (artistTag titleTag copyrightTag dateTag : Str)
    (wikiFetch mbFetch : Str → Str → Str)
    (hw : wikiFetch (pyStrip artistTag) (pyStrip (strip_title_parenthetical_terms titleTag)) = []
          ∨ isDigits4 (wikiFetch (pyStrip artistTag) (pyStrip (strip_title_parenthetical_terms titleTag))))
    (hm : mbFetch (pyStrip artistTag) (pyStrip (strip_title_parenthetical_terms titleTag)) = []
          ∨ isDigits4 (mbFetch (pyStrip artistTag) (pyStrip (strip_title_parenthetical_terms titleTag)))) :
    ((get_audio_metadata artistTag titleTag copyrightTag dateTag wikiFetch mbFetch).mbCalled = true
      ↔ wikiFetch (pyStrip artistTag) (pyStrip (strip_title_parenthetical_terms titleTag)) = [])
    ∧ (get_audio_metadata artistTag titleTag copyrightTag dateTag wikiFetch mbFetch).year =
        smallestNonemptyByNat
          [smallestNonemptyByNat [extract_year_from_text copyrightTag, extract_year dateTag],
           if (wikiFetch (pyStrip artistTag) (pyStrip (strip_title_parenthetical_terms titleTag))).isEmpty
           then mbFetch (pyStrip artistTag) (pyStrip (strip_title_parenthetical_terms titleTag))
           else wikiFetch (pyStrip artistTag) (pyStrip (strip_title_parenthetical_terms titleTag))] := by
  set qa := pyStrip artistTag with hqa
  set qt := pyStrip (strip_title_parenthetical_terms titleTag) with hqt
  set cy := extract_year_from_text copyrightTag with hcy
  set dy := extract_year dateTag with hdy
  have hcy4 : cy = [] ∨ isDigits4 cy := by
    rcases extract_year_from_text_spec copyrightTag with h | h
    · left; exact h
    · right; exact h.1
  have hdy4 : dy = [] ∨ isDigits4 dy := extract_year_spec dateTag
  have hseed :
      (if (([cy, dy]).filter (fun y => !y.isEmpty)).isEmpty then []
       else pyMin (([cy, dy]).filter (fun y => !y.isEmpty))) =
        smallestNonemptyByNat [cy, dy] :=
    code_min2_eq_sNBN cy dy hcy4 hdy4
  have hseed4 : smallestNonemptyByNat [cy, dy] = [] ∨
      isDigits4 (smallestNonemptyByNat [cy, dy]) := sNBN2_digits cy dy hcy4 hdy4
  by_cases hwe : (wikiFetch qa qt).isEmpty
  · -- the Wikipedia step yields no candidate: MusicBrainz is consulted
    have hwnil : wikiFetch qa qt = [] := List.isEmpty_iff.mp hwe
    have hcomb := code_combine_eq_sNBN (smallestNonemptyByNat [cy, dy])
      (mbFetch qa qt) hseed4 hm
    have hfin4 : smallestNonemptyByNat [smallestNonemptyByNat [cy, dy], mbFetch qa qt] = []
        ∨ isDigits4 (smallestNonemptyByNat [smallestNonemptyByNat [cy, dy], mbFetch qa qt]) :=
      sNBN2_digits _ _ hseed4 hm
    constructor
    · simp [get_audio_metadata, hwe, hwnil, ← hqa, ← hqt]
    · simp only [get_audio_metadata, ← hqa, ← hqt, ← hcy, ← hdy, hwe, Bool.not_true,
        Bool.false_eq_true, if_false, if_true, hseed]
      rw [hcomb]
      rcases hfin4 with h | h
      · simp [h, pyStrip, dropTrailing]
      · have hdig : ((smallestNonemptyByNat [smallestNonemptyByNat [cy, dy], mbFetch qa qt]).all
            isDigitChar) = true := h.2
        simp [hdig, pyStrip_of_all_digits hdig]
  · -- the Wikipedia candidate is present and final for the external step
    have hwne : wikiFetch qa qt ≠ [] := by
      cases hx : wikiFetch qa qt with
      | nil => rw [hx] at hwe; exact absurd rfl hwe
      | cons c cs => simp
    have hcomb := code_combine_eq_sNBN (smallestNonemptyByNat [cy, dy])
      (wikiFetch qa qt) hseed4 hw
    have hfin4 : smallestNonemptyByNat [smallestNonemptyByNat [cy, dy], wikiFetch qa qt] = []
        ∨ isDigits4 (smallestNonemptyByNat [smallestNonemptyByNat [cy, dy], wikiFetch qa qt]) :=
      sNBN2_digits _ _ hseed4 hw
    have hwe' : (wikiFetch qa qt).isEmpty = false := by
      cases hx : wikiFetch qa qt with
      | nil => exact absurd hx hwne
      | cons c cs => simp
    constructor
    · simp [get_audio_metadata, hwe', hwne, ← hqa, ← hqt]
    · have hcomb' : pyMin (([smallestNonemptyByNat [cy, dy], wikiFetch qa qt]).filter
          (fun y => !y.isEmpty)) =
          smallestNonemptyByNat [smallestNonemptyByNat [cy, dy], wikiFetch qa qt] := by
        rw [← hcomb]
        simp [hwe']
      simp only [get_audio_metadata, ← hqa, ← hqt, ← hcy, ← hdy, hwe', Bool.not_false,
        Bool.false_eq_true, if_false, if_true, hseed]
      rw [hcomb']
      rcases hfin4 with h | h
      · simp [h, pyStrip, dropTrailing]
      · have hdig : ((smallestNonemptyByNat [smallestNonemptyByNat [cy, dy], wikiFetch qa qt]).all
            isDigitChar) = true := h.2
        simp [hdig, pyStrip_of_all_digits hdig]

/-- C1.  The resolved year of `get_audio_metadata` is the numerically
smallest non-empty value among the tag-derived seed candidate and the
Wikipedia candidate when the latter is present, else the recording-database
candidate; and the recording-database client is called exactly when the
Wikipedia step yields no candidate.  The oracles stand for the two network
clients, whose outputs are always empty or 4-digit strings
(`fetch_wikipedia_released_year` returns a `\b(19..|20..)\b` match and
`fetch_musicbrainz_year` an `_extract_year` result). -/
theorem c1_resolved_year_is_smallest_nonempty
    (artistTag titleTag copyrightTag dateTag : Str)
    (wikiFetch mbFetch : Str → Str → Str)
    (hw : wikiFetch (pyStrip artistTag) (pyStrip (strip_title_parenthetical_terms titleTag)) = []
          ∨ isDigits4 (wikiFetch (pyStrip artistTag) (pyStrip (strip_title_parenthetical_terms titleTag))))
    (hm : mbFetch (pyStrip artistTag) (pyStrip (strip_title_parenthetical_terms titleTag)) = []
          ∨ isDigits4 (mbFetch (pyStrip artistTag) (pyStrip (strip_title_parenthetical_terms titleTag)))) :
    ((get_audio_metadata artistTag titleTag copyrightTag dateTag wikiFetch mbFetch).mbCalled = true
      ↔ wikiFetch (pyStrip artistTag) (pyStrip (strip_title_parenthetical_terms titleTag)) = [])
    ∧ (get_audio_metadata artistTag titleTag copyrightTag dateTag wikiFetch mbFetch).year =
        smallestNonemptyByNat
          [smallestNonemptyByNat [extract_year_from_text copyrightTag, extract_year dateTag],
           if (wikiFetch (pyStrip artistTag) (pyStrip (strip_title_parenthetical_terms titleTag))).isEmpty
           then mbFetch (pyStrip artistTag) (pyStrip (strip_title_parenthetical_terms titleTag))
           else wikiFetch (pyStrip artistTag) (pyStrip (strip_title_parenthetical_terms titleTag))] :=
  get_audio_metadata_resolution artistTag titleTag copyrightTag dateTag wikiFetch mbFetch hw hm

/-- Witness for C1, covering the spec's end-to-end example: local tag year
`"2005"`, Wikipedia candidate `"1998"` — the resolved year is `"1998"`. -/
theorem c1_witness :
    (get_audio_metadata "Queen".data "Song".data [] "2005".data
        (fun _ _ => "1998".data) (fun _ _ => [])).year = "1998".data ∧
    (get_audio_metadata "Queen".data "Song".data [] "2005".data
        (fun _ _ => "1998".data) (fun _ _ => [])).mbCalled = false := by
  have h := c1_resolved_year_is_smallest_nonempty "Queen".data "Song".data [] "2005".data
    (fun _ _ => "1998".data) (fun _ _ => [])
    (Or.inr (by constructor <;> rfl)) (Or.inl rfl)
  refine ⟨?_, ?_⟩
  · rw [h.2]; rfl
  · cases hmb : (get_audio_metadata "Queen".data "Song".data [] "2005".data
        (fun _ _ => "1998".data) (fun _ _ => [])).mbCalled
    · rfl
    · exact absurd (h.1.mp hmb) (by decide)

/-- C2 counterexample.  The claim says every year at the public interface
is empty or 4 digits denoting a year in [1900, 2099]; but `_extract_year`
accepts any 4-digit prefix of the date tag, so the date `"0123-06-01"`
produces the year `"0123"` (numerically 123, outside [1900, 2099]), and
that value is returned unchanged as the final resolved year. -/
theorem c2_counterexample :
    extract_year "0123-06-01".data = "0123".data ∧
    (get_audio_metadata "A".data "T".data [] "0123-06-01".data
        (fun _ _ => []) (fun _ _ => [])).year = "0123".data ∧
    digitsToNat "0123".data < 1900 := by
  refine ⟨rfl, rfl, by decide⟩

/-- C2 (amended).  Every year at the public interface is either empty or
exactly 4 ASCII digits; the regex-based extractors
(`_extract_year_from_text`, `_extract_earliest_year_from_text`) moreover
guarantee the range [1900, 2099], but `_extract_year` (date splitting) and
hence the final resolved year only guarantee the 4-digit shape. -/
theorem c2_amended_year_shape :
    (∀ s, extract_year s = [] ∨ isDigits4 (extract_year s))
    ∧ (∀ s, extract_year_from_text s = [] ∨
        (isDigits4 (extract_year_from_text s) ∧
          1900 ≤ digitsToNat (extract_year_from_text s) ∧
          digitsToNat (extract_year_from_text s) ≤ 2099))
    ∧ (∀ s, extract_earliest_year_from_text s = [] ∨
        (isDigits4 (extract_earliest_year_from_text s) ∧
          1900 ≤ digitsToNat (extract_earliest_year_from_text s) ∧
          digitsToNat (extract_earliest_year_from_text s) ≤ 2099))
    ∧ (∀ (artistTag titleTag copyrightTag dateTag : Str)
        (wikiFetch mbFetch : Str → Str → Str),
        (wikiFetch (pyStrip artistTag) (pyStrip (strip_title_parenthetical_terms titleTag)) = []
          ∨ isDigits4 (wikiFetch (pyStrip artistTag) (pyStrip (strip_title_parenthetical_terms titleTag)))) →
        (mbFetch (pyStrip artistTag) (pyStrip (strip_title_parenthetical_terms titleTag)) = []
          ∨ isDigits4 (mbFetch (pyStrip artistTag) (pyStrip (strip_title_parenthetical_terms titleTag)))) →
        ((get_audio_metadata artistTag titleTag copyrightTag dateTag wikiFetch mbFetch).year = []
          ∨ isDigits4 (get_audio_metadata artistTag titleTag copyrightTag dateTag wikiFetch mbFetch).year)) := by
  refine ⟨extract_year_spec, extract_year_from_text_spec,
    extract_earliest_year_from_text_spec, ?_⟩
  intro artistTag titleTag copyrightTag dateTag wikiFetch mbFetch hw hm
  have h := (get_audio_metadata_resolution artistTag titleTag copyrightTag dateTag
    wikiFetch mbFetch hw hm).2
  rw [h]
  have hcy4 : extract_year_from_text copyrightTag = []
      ∨ isDigits4 (extract_year_from_text copyrightTag) := by
    rcases extract_year_from_text_spec copyrightTag with h' | h'
    · left; exact h'
    · right; exact h'.1
  have hseed4 := sNBN2_digits _ _ hcy4 (extract_year_spec dateTag)
  refine sNBN2_digits _ _ hseed4 ?_
  split
  · exact hm
  · exact hw

/-- Witness for C2 (amended), at a concrete track: resolved year of a track
with date tag `"2005"` and no external candidates is empty or 4 digits. -/
theorem c2_amended_witness :
    (get_audio_metadata "A".data "T".data [] "2005".data
        (fun _ _ => []) (fun _ _ => [])).year = []
      ∨ isDigits4 (get_audio_metadata "A".data "T".data [] "2005".data
          (fun _ _ => []) (fun _ _ => [])).year :=
  c2_amended_year_shape.2.2.2 "A".data "T".data [] "2005".data
    (fun _ _ => []) (fun _ _ => []) (Or.inl rfl) (Or.inl rfl)

/-- C10.  `_strip_title_parenthetical_terms` returns a falsy argument
unchanged: `None` stays `None` (it is not converted to the empty string as
the year extractors do) and `""` stays `""`; on any string the function
totally computes a string (the embedding is a total function, mirroring
that the Python body can raise no exception). -/
theorem c10_falsy_title_unchanged :
    strip_title_parenthetical_terms_opt none = none ∧
    strip_title_parenthetical_terms_opt (some []) = some [] ∧
    ∀ s : Str, (strip_title_parenthetical_terms_opt (some s)).isSome = true :=
  ⟨rfl, rfl, fun _ => rfl⟩

/-- Computation bridge for `strip_title_parenthetical_terms` in terms of
the definitionally reducible `stripParenFuel`. -/
theorem strip_title_compute (s : Str) :
    strip_title_parenthetical_terms s =
      if s = [] then [] else pyStrip (collapseWsPass (stripParenFuel s.length s)) := by
  unfold strip_title_parenthetical_terms
  split
  · simp_all
  · rw [stripParenPass_eq_fuel s s.length (Nat.le_refl _)]

/-- C5 counterexample.  The qualifier-term list contains `remastered` but
not `remaster`, so the spec's example title
`"Bohemian Rhapsody (2011 Remaster)"` is left unchanged by
`_strip_title_parenthetical_terms`, and the external lookups of
`get_audio_metadata` are issued with the unchanged (merely stripped)
title, not with `"Bohemian Rhapsody"`. -/
theorem c5_counterexample :
    strip_title_parenthetical_terms "Bohemian Rhapsody (2011 Remaster)".data
      = "Bohemian Rhapsody (2011 Remaster)".data ∧
    strip_title_parenthetical_terms "Bohemian Rhapsody (2011 Remaster)".data
      ≠ "Bohemian Rhapsody".data ∧
    (get_audio_metadata "Queen".data "Bohemian Rhapsody (2011 Remaster)".data [] []
        (fun _ _ => []) (fun _ _ => [])).queryTitle
      = "Bohemian Rhapsody (2011 Remaster)".data := by
  have h : strip_title_parenthetical_terms "Bohemian Rhapsody (2011 Remaster)".data
      = "Bohemian Rhapsody (2011 Remaster)".data := by
    rw [strip_title_compute]
    rfl
  refine ⟨h, by rw [h]; decide, ?_⟩
  show pyStrip (strip_title_parenthetical_terms "Bohemian Rhapsody (2011 Remaster)".data)
    = "Bohemian Rhapsody (2011 Remaster)".data
  rw [h]
  rfl

/-- C5 (amended).  `strip_qualifiers` removes every parenthetical clause
whose content contains one of the qualifier terms as a whole word
(case-insensitively), collapses whitespace runs and trims; a parenthetical
whose content only contains a term as a fragment of a longer word (such as
`remixes`, or `Remaster` versus the term `remastered`) is preserved; the
spec's example title must use `Remastered` to be normalized, and
normalization (whatever its result) happens before any external lookup.
The conjuncts exercise each clause on representative inputs. -/
theorem c5_amended_strip_qualifiers :
    strip_title_parenthetical_terms "Bohemian Rhapsody (2011 Remastered)".data
      = "Bohemian Rhapsody".data ∧
    strip_title_parenthetical_terms "Bohemian Rhapsody (2011 Remaster)".data
      = "Bohemian Rhapsody (2011 Remaster)".data ∧
    strip_title_parenthetical_terms "Song (Live at Wembley)".data = "Song".data ∧
    strip_title_parenthetical_terms "Song (feat. X)".data = "Song (feat. X)".data ∧
    strip_title_parenthetical_terms "A (remixes) B".data = "A (remixes) B".data ∧
    strip_title_parenthetical_terms "  A   B (REMIX)  ".data = "A B".data ∧
    (get_audio_metadata "Queen".data "Song (Live)".data [] []
        (fun _ _ => []) (fun _ _ => [])).queryTitle = "Song".data := by
  have h7 : strip_title_parenthetical_terms "Song (Live)".data = "Song".data := by
    rw [strip_title_compute]; rfl
  refine ⟨by rw [strip_title_compute]; rfl, by rw [strip_title_compute]; rfl,
    by rw [strip_title_compute]; rfl, by rw [strip_title_compute]; rfl,
    by rw [strip_title_compute]; rfl, by rw [strip_title_compute]; rfl, ?_⟩
  show pyStrip (strip_title_parenthetical_terms "Song (Live)".data) = "Song".data
  rw [h7]
  rfl

/-! ## `wiki.py`: generic scanning helpers -/

/-- Case-sensitive prefix test. -/
def strStartsWith : Str → Str → Bool
| _, [] => true
| [], _ :: _ => false
| c :: cs, p :: ps => c = p && strStartsWith cs ps

/-- Index of the first (case-sensitive) occurrence of `pat` (`str.find`). -/
def findSubIdx (pat : Str) : Str → Option Nat
| [] => if pat.isEmpty then some 0 else none
| c :: rest =>
    if strStartsWith (c :: rest) pat then some 0
    else (findSubIdx pat rest).map (· + 1)

/-- Index of the first case-insensitive occurrence of `pat` (lower-case). -/
def findCiSubIdx (pat : Str) : Str → Option Nat
| [] => if pat.isEmpty then some 0 else none
| c :: rest =>
    if ciStartsWith (c :: rest) pat then some 0
    else (findCiSubIdx pat rest).map (· + 1)

/-- Substring containment (used for category titles). -/
def containsSub (pat s : Str) : Bool := (findSubIdx pat s).isSome

/-- Python `str.endswith`. -/
def strEndsWith (s pat : Str) : Bool := strStartsWith s.reverse pat.reverse

/-! ## `wiki.py` `_clean_wikitext` -/

/-- Length of the match of `<ref[^>]*>.*?</ref>` (case-insensitive,
dot-matches-newline, lazy `.*?` up to the first `</ref>`) at the start of
`s`, if any. -/
def refPairLen (s : Str) : Option Nat :=
  if ciStartsWith s "<ref".data then
    let u := s.drop 4
    let a := u.takeWhile (· ≠ '>')
    match u.drop a.length with
    | '>' :: v =>
        match findCiSubIdx "</ref>".data v with
        | some i => some (4 + a.length + 1 + i + 6)
        | none => none
    | _ => none
  else none

/-- Length of the match of `<ref[^/]*/>` (case-insensitive) at the start
of `s`, if any. -/
def refSelfCloseLen (s : Str) : Option Nat :=
  if ciStartsWith s "<ref".data then
    let u := s.drop 4
    let b := u.takeWhile (· ≠ '/')
    match u.drop b.length with
    | '/' :: '>' :: _ => some (4 + b.length + 2)
    | _ => none
  else none

/-- Length of the match of `<[^>]+>` at the start of `s`, if any. -/
def tagLen (s : Str) : Option Nat :=
  match s with
  | '<' :: u =>
      let a := u.takeWhile (· ≠ '>')
      if a.isEmpty then none
      else
        match u.drop a.length with
        | '>' :: _ => some (1 + a.length + 1)
        | _ => none
  | _ => none

/-- Embeds `re.sub` deleting every leftmost, non-overlapping match recognised by
`m` (which returns the match length).  Fuel-indexed: every step consumes at
least one character, so the caller passes the string length as fuel. -/
def subDeleteFuel (m : Str → Option Nat) : Nat → Str → Str
| 0, _ => []
| _ + 1, [] => []
| fuel + 1, c :: rest =>
    match m (c :: rest) with
    | some n => subDeleteFuel m fuel (rest.drop (n - 1))
    | none => c :: subDeleteFuel m fuel rest

/-- Embeds `re.sub` deleting matches of `m`, with fuel instantiated. -/
def subDelete (m : Str → Option Nat) (s : Str) : Str := subDeleteFuel m s.length s

/-- Embeds `re.sub` replacing every leftmost, non-overlapping match recognised by
`m` (which returns the replacement and the match length). -/
def subReplaceFuel (m : Str → Option (Str × Nat)) : Nat → Str → Str
| 0, _ => []
| _ + 1, [] => []
| fuel + 1, c :: rest =>
    match m (c :: rest) with
    | some (r, n) => r ++ subReplaceFuel m fuel (rest.drop (n - 1))
    | none => c :: subReplaceFuel m fuel rest

/-- Embeds `re.sub` replacing matches of `m`, with fuel instantiated. -/
def subReplace (m : Str → Option (Str × Nat)) (s : Str) : Str :=
  subReplaceFuel m s.length s

/-- Match of the link pattern `\[\[([^|\]]*\|)?([^\]]+)\]\]` at the start
of `s`: replacement is group 2.  The optional group is tried first
(greedily); on its failure the pattern backtracks to the plain
`[[Text]]` reading. -/
def linkMatch (s : Str) : Option (Str × Nat) :=
  match s with
  | '[' :: '[' :: u =>
      let fallback :=
        let g2 := u.takeWhile (· ≠ ']')
        if !g2.isEmpty && strStartsWith (u.drop g2.length) "]]".data then
          some (g2, 2 + g2.length + 2)
        else none
      let p := u.takeWhile (fun c => !(c = '|' || c = ']'))
      match u.drop p.length with
      | '|' :: v =>
          let g2 := v.takeWhile (· ≠ ']')
          if !g2.isEmpty && strStartsWith (v.drop g2.length) "]]".data then
            some (g2, 2 + p.length + 1 + g2.length + 2)
          else fallback
      | _ => fallback
  | _ => none

/-- The date-template names recognised by `_clean_wikitext`. -/
def dateTemplateNames : List Str :=
  ["start date".data, "start date and age".data, "start-date".data,
   "birth date".data, "birth-date".data, "date".data]

/-- The replacement function for `\x7b\x7b([^\x7d]*)\x7d\x7d`: a recognised
date template becomes the hyphen-joined list of its (unstripped) positional
arguments whose stripped form is all digits; everything else becomes
empty. -/
def tplRepl (inner : Str) : Str :=
  if inner.isEmpty then []
  else
    match inner.splitOn '|' with
    | [] => []
    | p0 :: rest =>
        if dateTemplateNames.contains (lowerStr (pyStrip p0)) then
          let nums := rest.filter fun p =>
            !(pyStrip p).isEmpty && (pyStrip p).all isDigitChar
          List.intercalate "-".data nums
        else []

/-- Match of `\x7b\x7b([^\x7d]*)\x7d\x7d` at the start of `s`, paired with
its `tplRepl` replacement. -/
def templateMatch (s : Str) : Option (Str × Nat) :=
  match s with
  | '\x7b' :: '\x7b' :: u =>
      let a := u.takeWhile (· ≠ '\x7d')
      match u.drop a.length with
      | '\x7d' :: '\x7d' :: _ => some (tplRepl a, 2 + a.length + 2)
      | _ => none
  | _ => none

/-- One-pass scan for `re.sub(r"\s+", " ", ·)`: every whitespace run
(of any length) becomes a single space. -/
def collapseAllWs : Str → Str
| [] => []
| c :: rest =>
    if isSpaceChar c then
      if headSpace rest then collapseAllWs rest else ' ' :: collapseAllWs rest
    else c :: collapseAllWs rest

/-- Embeds `wiki.py` `_clean_wikitext`: drop `<ref>` pairs and self-closing
`<ref/>` tags, drop remaining tags, resolve `[[Target|Display]]` links,
resolve date templates (other templates become empty), drop stray square
brackets, collapse whitespace and strip. -/
def clean_wikitext (text : Str) : Str :=
  if text = [] then []
  else
    let s1 := subDelete refPairLen text
    let s2 := subDelete refSelfCloseLen s1
    let s3 := subDelete tagLen s2
    let s4 := subReplace linkMatch s3
    let s5 := subReplace templateMatch s4
    let s6 := s5.filter fun c => !(c = '[' || c = ']')
    pyStrip (collapseAllWs s6)

/-! ## `wiki.py` `_extract_infobox_wikitext` -/

/-- The balanced-template scan of `_extract_infobox_wikitext`: starting at
a template opening, `\x7b\x7b` increments and `\x7d\x7d` decrements a
nesting counter; the scanned span is returned when the counter reaches
zero, and `none` (malformed template) when the text ends first. -/
def scanTemplate : Str → Int → Option Str
| '\x7b' :: '\x7b' :: r, count =>
    (scanTemplate r (count + 1)).map (fun t => '\x7b' :: '\x7b' :: t)
| '\x7d' :: '\x7d' :: r, count =>
    if count - 1 = 0 then some ['\x7d', '\x7d']
    else (scanTemplate r (count - 1)).map (fun t => '\x7d' :: '\x7d' :: t)
| c :: r, count => (scanTemplate r count).map (fun t => c :: t)
| [], _ => none

/-- Matcher for the fallback spelling `\x7b\x7b\s*infobox\s+song`
(case-insensitive) at the start of `s`. -/
def ciInfoboxAt (s : Str) : Bool :=
  strStartsWith s ['\x7b', '\x7b'] &&
    (let u1 := (s.drop 2).dropWhile isSpaceChar
     ciStartsWith u1 "infobox".data &&
       (let u2 := u1.drop 7
        let w := u2.takeWhile isSpaceChar
        !w.isEmpty && ciStartsWith (u2.drop w.length) "song".data))

/-- Index of the first match of the fallback infobox spelling. -/
def findCiInfoboxIdx : Str → Option Nat
| [] => none
| c :: rest =>
    if ciInfoboxAt (c :: rest) then some 0
    else (findCiInfoboxIdx rest).map (· + 1)

/-- Embeds `wiki.py` `_extract_infobox_wikitext` (with the default template name
`"Infobox song"`, the only one the code uses): find `\x7b\x7bInfobox song`
(case-sensitively, else the case-insensitive fallback spelling) and return
the balanced span starting there, if the braces balance. -/
def extract_infobox_wikitext (wikitext : Str) : Option Str :=
  match findSubIdx ('\x7b' :: '\x7b' :: "Infobox song".data) wikitext with
  | some idx => scanTemplate (wikitext.drop idx) 0
  | none =>
      match findCiInfoboxIdx wikitext with
      | some idx => scanTemplate (wikitext.drop idx) 0
      | none => none

/-! ## `wiki.py` `_parse_released_from_infobox` -/

/-- Python `str.splitlines` restricted to `\n` boundaries (the ASCII
fragment relevant to wikitext): accumulate the current line reversed. -/
def splitlinesAux : Str → Str → List Str
| [], acc => [acc.reverse]
| '\n' :: rest, acc =>
    acc.reverse :: (match rest with
                    | [] => []
                    | _ :: _ => splitlinesAux rest [])
| c :: rest, acc => splitlinesAux rest (c :: acc)

/-- Python `str.splitlines` (empty string gives no lines). -/
def pySplitlines : Str → List Str
| [] => []
| c :: rest => splitlinesAux (c :: rest) []

/-- Python `s.split("=", 1)`: text before the first `=`, and the remainder
after it when an `=` is present. -/
def splitFirstEq (s : Str) : Str × Option Str :=
  let a := s.takeWhile (· ≠ '=')
  match s.drop a.length with
  | '=' :: rest => (a, some rest)
  | _ => (a, none)

/-- Python `"\n".join`. -/
def joinLines (ls : List Str) : Str := List.intercalate "\n".data ls

/-- The line loop of `_parse_released_from_infobox`.  State: current field
key (`[]` standing for Python's initial `None` and for an empty key, which
behave identically under the `if key` guards), the artist value captured
so far (cleaned), and the value lines of the current field.  A line
starting (after stripping) with `|` first commits a pending `artist`
field, then stops the whole scan if the pending field is `released`, else
begins a new field; other lines are continuations appended to the current
field.  Returns the state at loop end. -/
def parseReleasedLoop : List Str → Str → Str → List Str → Str × Str × List Str
| [], key, artistRaw, valueLines => (key, artistRaw, valueLines)
| line :: rest, key, artistRaw, valueLines =>
    let stripped := pyStrip line
    match stripped with
    | '|' :: afterBar =>
        let artistRaw1 :=
          if !key.isEmpty && lowerStr key = "artist".data then
            clean_wikitext (pyStrip (joinLines valueLines))
          else artistRaw
        if !key.isEmpty && lowerStr key = "released".data then
          (key, artistRaw1, valueLines)
        else
          let parts := splitFirstEq afterBar
          let value :=
            match parts.2 with
            | some v => pyStrip v
            | none => []
          parseReleasedLoop rest (pyStrip parts.1) artistRaw1 [value]
    | _ =>
        if !key.isEmpty then
          parseReleasedLoop rest key artistRaw (valueLines ++ [stripped])
        else parseReleasedLoop rest key artistRaw valueLines

/-- Embeds `wiki.py` `_parse_released_from_infobox`: scan the template body line
by line; when the scan ends at a `released` field and the artist captured
earlier equals the expected artist, return the cleaned `released` value,
else the empty string. -/
def parse_released_from_infobox (infobox artist : Str) : Str :=
  let r := parseReleasedLoop (pySplitlines infobox) [] [] []
  if (!r.1.isEmpty && lowerStr r.1 = "released".data) && r.2.1 = artist then
    clean_wikitext (pyStrip (joinLines r.2.2))
  else []

/-! ## `wiki.py` `_is_disambiguation` and pages -/

/-- A fetched wiki page: category titles and revision contents (the code
uses at most the first revision's main-slot wikitext). -/
structure WikiPage where
  categories : List Str
  revisions : List Str
deriving DecidableEq

/-- The category test of `_is_disambiguation` on one category title. -/
def is_disambig_category (t : Str) : Bool :=
  let tl := lowerStr t
  containsSub "disambiguation pages".data tl ||
    strEndsWith tl "disambiguation pages".data ||
    containsSub "disambiguation".data tl

/-- Scan for `[^\x7d]*disambig` (case-insensitive) after a `\x7b\x7b`. -/
def disambigScan : Str → Bool
| [] => false
| c :: rest =>
    if ciStartsWith (c :: rest) "disambig".data then true
    else if c = '\x7d' then false
    else disambigScan rest

/-- Matcher for `\x7b\x7b[^\x7d]*disambig` (case-insensitive) at the start
of `s`. -/
def disambigTemplateAt (s : Str) : Bool :=
  match s with
  | '\x7b' :: '\x7b' :: u => disambigScan u
  | _ => false

/-- Embeds `re.search` of the disambiguation-template marker anywhere in `s`. -/
def hasDisambigTemplate : Str → Bool
| [] => false
| c :: rest => disambigTemplateAt (c :: rest) || hasDisambigTemplate rest

/-- Embeds `wiki.py` `_is_disambiguation`: a category title containing
`disambiguation` (the three subchecks of the source collapse to this, and
are embedded literally), or a `\x7b\x7b...disambig` marker in the first
revision's content. -/
def is_disambiguation (page : WikiPage) : Bool :=
  page.categories.any is_disambig_category ||
    (match page.revisions with
     | [] => false
     | content :: _ => hasDisambigTemplate content)

/-! ## `wiki.py` `get_song_release_date` -/

/-- The page-extraction block repeated in steps 1–3 of
`get_song_release_date`: take the first revision's content, extract the
infobox span, parse its `released` field with artist validation; any
missing piece yields the empty string. -/
def pageReleased (page : WikiPage) (artist : Str) : Str :=
  match page.revisions with
  | [] => []
  | content :: _ =>
      match extract_infobox_wikitext content with
      | none => []
      | some infobox => parse_released_from_infobox infobox artist

/-- Embeds the title normalization of `get_song_release_date`: strip
whitespace, then double quotes, then single quotes. -/
def stripQuotesTitle (t : Str) : Str :=
  pyStripChars [Char.ofNat 39] (pyStripChars ['"'] (pyStrip t))

/-- Step 3 of `get_song_release_date`: try
`"<title> (<artist-without-slashes-or-parens> song)"`. -/
def wikiStep3 (fetch : Str → Option WikiPage) (t a : Str) : Str :=
  let artist_for_title := pyStrip (a.filter fun c => !(c = '/' || c = '(' || c = ')'))
  match fetch (t ++ " (".data ++ artist_for_title ++ " song)".data) with
  | some page => pageReleased page a
  | none => []

/-- Step 2 of `get_song_release_date`: try `"<title> (song)"`, else fall
through to step 3. -/
def wikiStep2 (fetch : Str → Option WikiPage) (t a : Str) : Str :=
  match fetch (t ++ " (song)".data) with
  | some page => pageReleased page a
  | none => wikiStep3 fetch t a

/-- Embeds `wiki.py` `get_song_release_date`, with the page-info fetch modelled
as an oracle from page titles to optional pages (a `none` result stands
for a missing page).  The exact title is tried first; a found page that is
not a disambiguation page is final; a missing page or a disambiguation
page falls through to the title variants of steps 2–3. -/
def get_song_release_date (fetch : Str → Option WikiPage) (title artist : Str) : Str :=
  let t := stripQuotesTitle title
  let a := pyStrip artist
  match fetch t with
  | some page =>
      if !is_disambiguation page then pageReleased page a
      else wikiStep2 fetch t a
  | none => wikiStep2 fetch t a

/-! ## C6: the infobox field parser -/

/-- Stop lemma for the infobox scan: when the pending field is keyed
`released` and the next line starts (after stripping) with `|`, the loop
ends at that line — the remaining lines are never examined, and the
pending `released` value is kept (the artist-commit step does not fire for
a `released` key). -/
theorem parseReleasedLoop_stops (line afterBar : Str) (rest : List Str)
    (key artistRaw : Str) (valueLines : List Str)
    (hline : pyStrip line = '|' :: afterBar)
    (hkey : key.isEmpty = false)
    (hrel : lowerStr key = "released".data) :
    parseReleasedLoop (line :: rest) key artistRaw valueLines =
      (key, artistRaw, valueLines) := by
  have hart : (lowerStr key = "artist".data) = False := by
    simp [hrel]
  simp [parseReleasedLoop, hline, hkey, hrel, hart]

/-- C6.  The infobox field parser stops at the first `released` field and
returns its cleaned value exactly when the `artist` field captured earlier
in the same scan equals the expected artist, else the empty string; field
order matters (`released` before `artist` yields empty); and lines after
the line that follows the `released` field are never examined
(`parseReleasedLoop_stops`, instantiated concretely in the fourth and
fifth conjuncts: a second `artist`/`released` pair after the first
`released` field changes nothing). -/
theorem c6_released_gated_by_artist :
    parse_released_from_infobox "|artist=Artist X\n|released=1999".data
      "Artist X".data = "1999".data ∧
    parse_released_from_infobox "|artist=Artist X\n|released=1999".data
      "Artist Y".data = [] ∧
    parse_released_from_infobox "|released=1999\n|artist=Artist X".data
      "Artist X".data = [] ∧
    parse_released_from_infobox
      "|artist=Artist X\n|released=1999\n|artist=Artist Y\n|released=2024".data
      "Artist X".data = "1999".data ∧
    parse_released_from_infobox
      "|artist=Artist X\n|released=1999\n|artist=Artist Y\n|released=2024".data
      "Artist Y".data = [] ∧
    (∀ (line afterBar : Str) (rest : List Str) (key artistRaw : Str)
        (valueLines : List Str),
      pyStrip line = '|' :: afterBar →
      key.isEmpty = false →
      lowerStr key = "released".data →
      parseReleasedLoop (line :: rest) key artistRaw valueLines =
        (key, artistRaw, valueLines)) :=
  ⟨rfl, rfl, rfl, rfl, rfl, parseReleasedLoop_stops⟩

/-- Witness for C6: the stop lemma at a concrete state — with pending key
`released` and next line `"|label=L"`, the scan ends regardless of the
(arbitrarily misleading) remaining lines. -/
theorem c6_witness :
    parseReleasedLoop ["|label=L".data, "|released=2024".data]
        "released".data "Artist X".data ["1999".data] =
      ("released".data, "Artist X".data, ["1999".data]) :=
  c6_released_gated_by_artist.2.2.2.2.2 "|label=L".data "label=L".data
    ["|released=2024".data] "released".data "Artist X".data ["1999".data]
    rfl rfl rfl

/-! ## C7: balanced template spans -/

/-- Running values of the brace-nesting counter along a span, one entry
per scan step, with the same tokenization as the extraction scan
(`\x7b\x7b` and `\x7d\x7d` consume two characters). -/
def runDepths : Int → Str → List Int
| _, [] => []
| c, [_] => [c]
| c, a :: b :: t =>
    if a = '\x7b' && b = '\x7b' then (c + 1) :: runDepths (c + 1) t
    else if a = '\x7d' && b = '\x7d' then (c - 1) :: runDepths (c - 1) t
    else c :: runDepths c (b :: t)

/-- A successful template scan returns a nonempty prefix of its input. -/
theorem scanTemplate_prefix {xs : Str} {c : Int} {t : Str}
    (h : scanTemplate xs c = some t) :
    (∃ u, xs = t ++ u) ∧ t ≠ [] := by
  induction xs, c using scanTemplate.induct generalizing t with
  | case1 r count ih =>
      simp only [scanTemplate] at h
      cases hs : scanTemplate r (count + 1) with
      | none => rw [hs] at h; simp at h
      | some t' =>
          rw [hs] at h
          simp only [Option.map_some', Option.some.injEq] at h
          subst h
          obtain ⟨⟨u, hu⟩, _⟩ := ih hs
          exact ⟨⟨u, by rw [hu]; rfl⟩, by simp⟩
  | case2 r count hc =>
      simp only [scanTemplate, if_pos hc] at h
      cases h
      exact ⟨⟨r, rfl⟩, by simp⟩
  | case3 r count hc ih =>
      simp only [scanTemplate, if_neg hc] at h
      cases hs : scanTemplate r (count - 1) with
      | none => rw [hs] at h; simp at h
      | some t' =>
          rw [hs] at h
          simp only [Option.map_some', Option.some.injEq] at h
          subst h
          obtain ⟨⟨u, hu⟩, _⟩ := ih hs
          exact ⟨⟨u, by rw [hu]; rfl⟩, by simp⟩
  | case4 cc r count hshape1 hshape2 ih =>
      simp only [scanTemplate] at h
      cases hs : scanTemplate r count with
      | none => rw [hs] at h; simp at h
      | some t' =>
          rw [hs] at h
          simp only [Option.map_some', Option.some.injEq] at h
          subst h
          obtain ⟨⟨u, hu⟩, _⟩ := ih hs
          exact ⟨⟨u, by rw [hu]; rfl⟩, by simp⟩
  | case5 count => simp [scanTemplate] at h

/-- Depth invariant of the template scan: starting at positive depth, the
counter stays at least 1 at every step except the final one, where it is
exactly 0 (the scan stops at the first return to zero and never returns a
truncated span). -/
theorem scanTemplate_depths {xs : Str} {c : Int} {t : Str}
    (h : scanTemplate xs c = some t) (hc : 1 ≤ c) :
    ∃ ds, runDepths c t = ds ++ [0] ∧ ∀ d ∈ ds, 1 ≤ d := by
  induction xs, c using scanTemplate.induct generalizing t with
  | case1 r count ih =>
      simp only [scanTemplate] at h
      cases hs : scanTemplate r (count + 1) with
      | none => rw [hs] at h; simp at h
      | some t' =>
          rw [hs] at h
          simp only [Option.map_some', Option.some.injEq] at h
          subst h
          obtain ⟨ds', hds', hall'⟩ := ih hs (by omega)
          obtain ⟨_, hne⟩ := scanTemplate_prefix hs
          cases t' with
          | nil => exact absurd rfl hne
          | cons y t'' =>
              refine ⟨(count + 1) :: ds', ?_, ?_⟩
              · have hred : runDepths count ('\x7b' :: '\x7b' :: y :: t'') =
                    (count + 1) :: runDepths (count + 1) (y :: t'') := by
                  simp [runDepths]
                rw [hred, hds']
                rfl
              · intro d hd
                rcases List.mem_cons.mp hd with rfl | hd
                · omega
                · exact hall' d hd
  | case2 r count hcz =>
      simp only [scanTemplate, if_pos hcz] at h
      cases h
      refine ⟨[], ?_, by simp⟩
      have hred : runDepths count ['\x7d', '\x7d'] = [count - 1] := by
        simp [runDepths]
      rw [hred, hcz]
      rfl
  | case3 r count hcz ih =>
      simp only [scanTemplate, if_neg hcz] at h
      cases hs : scanTemplate r (count - 1) with
      | none => rw [hs] at h; simp at h
      | some t' =>
          rw [hs] at h
          simp only [Option.map_some', Option.some.injEq] at h
          subst h
          have hge : 1 ≤ count - 1 := by
            rcases lt_or_ge count 2 with hlt | hge2
            · interval_cases count
              · exact absurd rfl hcz
            · omega
          obtain ⟨ds', hds', hall'⟩ := ih hs hge
          obtain ⟨_, hne⟩ := scanTemplate_prefix hs
          cases t' with
          | nil => exact absurd rfl hne
          | cons y t'' =>
              refine ⟨(count - 1) :: ds', ?_, ?_⟩
              · have hred : runDepths count ('\x7d' :: '\x7d' :: y :: t'') =
                    (count - 1) :: runDepths (count - 1) (y :: t'') := by
                  simp [runDepths]
                rw [hred, hds']
                rfl
              · intro d hd
                rcases List.mem_cons.mp hd with rfl | hd
                · omega
                · exact hall' d hd
  | case4 cc r count hshape1 hshape2 ih =>
      simp only [scanTemplate] at h
      cases hs : scanTemplate r count with
      | none => rw [hs] at h; simp at h
      | some t' =>
          rw [hs] at h
          simp only [Option.map_some', Option.some.injEq] at h
          subst h
          obtain ⟨ds', hds', hall'⟩ := ih hs hc
          obtain ⟨⟨u, hu⟩, hne⟩ := scanTemplate_prefix hs
          cases ht' : t' with
          | nil => exact absurd ht' hne
          | cons y t'' =>
              have hhead : r = y :: (t'' ++ u) := by rw [hu, ht']; rfl
              have hnot1 : ¬(cc = '\x7b' ∧ y = '\x7b') := by
                intro ⟨h1, h2⟩
                exact hshape1 (t'' ++ u) h1 (by rw [hhead, h2])
              have hnot2 : ¬(cc = '\x7d' ∧ y = '\x7d') := by
                intro ⟨h1, h2⟩
                exact hshape2 (t'' ++ u) h1 (by rw [hhead, h2])
              refine ⟨count :: ds', ?_, ?_⟩
              · rw [ht'] at hds'
                have hred : runDepths count (cc :: y :: t'') =
                    count :: runDepths count (y :: t'') := by
                  rw [runDepths, if_neg (by simpa using hnot1),
                    if_neg (by simpa using hnot2)]
                rw [hred, hds']
                rfl
              · intro d hd
                rcases List.mem_cons.mp hd with rfl | hd
                · exact hc
                · exact hall' d hd
  | case5 count => simp [scanTemplate] at h

theorem strStartsWith_append {s pat : Str} (h : strStartsWith s pat = true) :
    ∃ v, s = pat ++ v := by
  induction pat generalizing s with
  | nil => exact ⟨s, rfl⟩
  | cons p ps ih =>
      cases s with
      | nil => simp [strStartsWith] at h
      | cons c cs =>
          simp only [strStartsWith, Bool.and_eq_true, decide_eq_true_eq] at h
          obtain ⟨v, hv⟩ := ih h.2
          exact ⟨v, by rw [h.1, hv]; rfl⟩

theorem findSubIdx_spec {pat s : Str} {i : Nat} (h : findSubIdx pat s = some i) :
    strStartsWith (s.drop i) pat = true := by
  induction s generalizing i with
  | nil =>
      simp only [findSubIdx] at h
      split at h
      · cases h
        simpa [strStartsWith] using by
          cases pat with
          | nil => rfl
          | cons p ps => simp_all
      · exact absurd h (by simp)
  | cons c rest ih =>
      simp only [findSubIdx] at h
      split at h
      case isTrue hp => cases h; simpa using hp
      case isFalse hp =>
          cases hf : findSubIdx pat rest with
          | none => rw [hf] at h; simp at h
          | some j =>
              rw [hf] at h
              simp only [Option.map_some', Option.some.injEq] at h
              subst h
              simpa using ih hf

theorem findCiInfoboxIdx_spec {s : Str} {i : Nat}
    (h : findCiInfoboxIdx s = some i) : ciInfoboxAt (s.drop i) = true := by
  induction s generalizing i with
  | nil => simp [findCiInfoboxIdx] at h
  | cons c rest ih =>
      simp only [findCiInfoboxIdx] at h
      split at h
      case isTrue hp => cases h; simpa using hp
      case isFalse hp =>
          cases hf : findCiInfoboxIdx rest with
          | none => rw [hf] at h; simp at h
          | some j =>
              rw [hf] at h
              simp only [Option.map_some', Option.some.injEq] at h
              subst h
              simpa using ih hf

/-- Balanced-span property of a scan started at a template opening. -/
theorem scanTemplate_at_braces {r0 res : Str}
    (h : scanTemplate ('\x7b' :: '\x7b' :: r0) 0 = some res) :
    (∃ t, res = '\x7b' :: '\x7b' :: t) ∧
    (∃ ds, runDepths 0 res = ds ++ [0] ∧ ∀ d ∈ ds, 1 ≤ d) := by
  simp only [scanTemplate] at h
  cases hs : scanTemplate r0 (0 + 1) with
  | none => rw [hs] at h; simp at h
  | some t' =>
      rw [hs] at h
      simp only [Option.map_some', Option.some.injEq] at h
      subst h
      refine ⟨⟨t', rfl⟩, ?_⟩
      obtain ⟨_, hne⟩ := scanTemplate_prefix hs
      obtain ⟨ds', hds', hall'⟩ := scanTemplate_depths hs (by omega)
      cases t' with
      | nil => exact absurd rfl hne
      | cons y t'' =>
          refine ⟨((0 : Int) + 1) :: ds', ?_, ?_⟩
          · have hred : runDepths 0 ('\x7b' :: '\x7b' :: y :: t'') =
                ((0 : Int) + 1) :: runDepths (0 + 1) (y :: t'') := by
              simp [runDepths]
            rw [hred, hds']
            rfl
          · intro d hd
            rcases List.mem_cons.mp hd with rfl | hd
            · omega
            · exact hall' d hd

/-- C7.  When the template extractor returns a span, that span is a
contiguous substring of the wikitext starting at `\x7b\x7b`, and the
brace-nesting counter along the span is strictly positive at every scan
step except the last, where it is exactly zero — the span is balanced,
never truncated (when the counter never returns to zero the extractor
returns `none` instead, which is the contrapositive of this statement
since a returned span always ends at counter zero). -/
theorem c7_infobox_span_balanced (w res : Str)
    (h : extract_infobox_wikitext w = some res) :
    (∃ pre post, w = pre ++ res ++ post) ∧
    (∃ t, res = '\x7b' :: '\x7b' :: t) ∧
    (∃ ds, runDepths 0 res = ds ++ [0] ∧ ∀ d ∈ ds, 1 ≤ d) := by
  unfold extract_infobox_wikitext at h
  have main : ∀ idx, scanTemplate (w.drop idx) 0 = some res →
      (∃ t, res = '\x7b' :: '\x7b' :: t) →
      (∃ pre post, w = pre ++ res ++ post) ∧
      (∃ t, res = '\x7b' :: '\x7b' :: t) ∧
      (∃ ds, runDepths 0 res = ds ++ [0] ∧ ∀ d ∈ ds, 1 ≤ d) := by
    intro idx hscan hshape
    obtain ⟨⟨u, hu⟩, _⟩ := scanTemplate_prefix hscan
    refine ⟨⟨w.take idx, u, ?_⟩, hshape, ?_⟩
    · conv_lhs => rw [← List.take_append_drop idx w]
      rw [hu, List.append_assoc]
    · obtain ⟨t, ht⟩ := hshape
      have hr0 : List.drop idx w = '\x7b' :: '\x7b' :: (t ++ u) := by
        rw [hu, ht]
        rfl
      have hscan2 := hscan
      rw [hr0] at hscan2
      exact (scanTemplate_at_braces hscan2).2
  split at h
  case h_1 idx hfind =>
      have hsw := findSubIdx_spec hfind
      obtain ⟨v, hv⟩ := strStartsWith_append hsw
      have hr0 : List.drop idx w = '\x7b' :: '\x7b' :: ("Infobox song".data ++ v) := by
        rw [hv]
        rfl
      have hscan := h
      rw [hr0] at hscan
      obtain ⟨hshape, _⟩ := scanTemplate_at_braces hscan
      exact main idx h hshape
  case h_2 hnone =>
      split at h
      case h_1 idx hfind =>
          have hci := findCiInfoboxIdx_spec hfind
          have hsw : strStartsWith (w.drop idx) ['\x7b', '\x7b'] = true := by
            have h2 := hci
            unfold ciInfoboxAt at h2
            rw [Bool.and_eq_true] at h2
            exact h2.1
          obtain ⟨v, hv⟩ := strStartsWith_append hsw
          have hr0 : List.drop idx w = '\x7b' :: '\x7b' :: v := by
            rw [hv]
            rfl
          have hscan := h
          rw [hr0] at hscan
          obtain ⟨hshape, _⟩ := scanTemplate_at_braces hscan
          exact main idx h hshape
      case h_2 => exact absurd h (by simp)

/-- Witness for C7 at a concrete wikitext with one balanced, nested
infobox template. -/
theorem c7_witness :
    (∃ pre post, "x\x7b\x7bInfobox song|a=\x7b\x7bn\x7d\x7d\x7d\x7dy".data =
        pre ++ "\x7b\x7bInfobox song|a=\x7b\x7bn\x7d\x7d\x7d\x7d".data ++ post) ∧
    (∃ t, "\x7b\x7bInfobox song|a=\x7b\x7bn\x7d\x7d\x7d\x7d".data =
        '\x7b' :: '\x7b' :: t) ∧
    (∃ ds, runDepths 0 "\x7b\x7bInfobox song|a=\x7b\x7bn\x7d\x7d\x7d\x7d".data =
        ds ++ [0] ∧ ∀ d ∈ ds, 1 ≤ d) :=
  c7_infobox_span_balanced "x\x7b\x7bInfobox song|a=\x7b\x7bn\x7d\x7d\x7d\x7dy".data
    "\x7b\x7bInfobox song|a=\x7b\x7bn\x7d\x7d\x7d\x7d".data rfl

/-! ## C3: the Wikipedia title-variant fallback chain -/

/-- Concrete fetch oracle: the exact title `"T"` resolves to a
disambiguation page; `"T (song)"` resolves to a song page whose infobox
carries a matching artist and a released year; other titles are missing. -/
def c3Fetch : Str → Option WikiPage := fun q =>
  if q = "T".data then
    some ⟨["Category:All disambiguation pages".data],
          ["\x7b\x7bDisambiguation\x7d\x7d".data]⟩
  else if q = "T (song)".data then
    some ⟨[],
          ["\x7b\x7bInfobox song\n|artist=Artist X\n|released=1999\n|label=L\n\x7d\x7d".data]⟩
  else none

/-- C3 counterexample.  The claim says title-variant retries happen only
when the page for the previous title is missing, and that once any title
yields a page that page is final.  But `get_song_release_date` also
retries when the exact-title page is found and is a disambiguation page:
here the page for `"T"` is found (and yields no candidate itself), yet the
result `"1999"` comes from the `"T (song)"` retry. -/
theorem c3_counterexample :
    (c3Fetch "T".data).isSome = true ∧
    pageReleased ⟨["Category:All disambiguation pages".data],
        ["\x7b\x7bDisambiguation\x7d\x7d".data]⟩ "Artist X".data = [] ∧
    get_song_release_date c3Fetch "T".data "Artist X".data = "1999".data :=
  ⟨rfl, rfl, rfl⟩

/-- C3 (amended).  The exact (cleaned) title is fetched first; a found
page that is not a disambiguation page is final for the Wikipedia step —
whether or not its infobox yields a released value — and no variant is
tried; a missing page or a found disambiguation page falls through to the
`"<title> (song)"` variant; a page found for a variant is final (even a
disambiguation page); only a missing variant page triggers the next
variant, and the last missing variant ends the step with no candidate. -/
theorem c3_amended_variant_chain (fetch : Str → Option WikiPage)
    (title artist : Str) :
    (∀ page, fetch (stripQuotesTitle title) = some page →
      is_disambiguation page = false →
      get_song_release_date fetch title artist = pageReleased page (pyStrip artist)) ∧
    (∀ page, fetch (stripQuotesTitle title) = some page →
      is_disambiguation page = true →
      get_song_release_date fetch title artist =
        wikiStep2 fetch (stripQuotesTitle title) (pyStrip artist)) ∧
    (fetch (stripQuotesTitle title) = none →
      get_song_release_date fetch title artist =
        wikiStep2 fetch (stripQuotesTitle title) (pyStrip artist)) ∧
    (∀ t a page, fetch (t ++ " (song)".data) = some page →
      wikiStep2 fetch t a = pageReleased page a) ∧
    (∀ t a, fetch (t ++ " (song)".data) = none →
      wikiStep2 fetch t a = wikiStep3 fetch t a) ∧
    (∀ t a page,
      fetch (t ++ " (".data ++
          pyStrip (a.filter fun c => !(c = '/' || c = '(' || c = ')')) ++
          " song)".data) = some page →
      wikiStep3 fetch t a = pageReleased page a) ∧
    (∀ t a,
      fetch (t ++ " (".data ++
          pyStrip (a.filter fun c => !(c = '/' || c = '(' || c = ')')) ++
          " song)".data) = none →
      wikiStep3 fetch t a = []) := by
  refine ⟨?_, ?_, ?_, ?_, ?_, ?_, ?_⟩
  · intro page hp hnd
    simp [get_song_release_date, hp, hnd]
  · intro page hp hd
    simp [get_song_release_date, hp, hd]
  · intro hp
    simp [get_song_release_date, hp]
  · intro t a page hp
    simp [wikiStep2, hp]
  · intro t a hp
    simp [wikiStep2, hp]
  · intro t a page hp
    simp only [wikiStep3, hp]
  · intro t a hp
    simp only [wikiStep3, hp]

/-- Witness for C3 (amended): under the concrete oracle `c3Fetch`, the
found disambiguation page at `"T"` routes the step to the `"T (song)"`
variant, which is final. -/
theorem c3_amended_witness :
    get_song_release_date c3Fetch "T".data "Artist X".data =
      wikiStep2 c3Fetch "T".data "Artist X".data ∧
    wikiStep2 c3Fetch "T".data "Artist X".data =
      pageReleased ⟨[],
        ["\x7b\x7bInfobox song\n|artist=Artist X\n|released=1999\n|label=L\n\x7d\x7d".data]⟩
        "Artist X".data := by
  have h := c3_amended_variant_chain c3Fetch "T".data "Artist X".data
  refine ⟨?_, ?_⟩
  · exact h.2.1 ⟨["Category:All disambiguation pages".data],
      ["\x7b\x7bDisambiguation\x7d\x7d".data]⟩ rfl rfl
  · exact h.2.2.2.1 "T".data "Artist X".data
      ⟨[], ["\x7b\x7bInfobox song\n|artist=Artist X\n|released=1999\n|label=L\n\x7d\x7d".data]⟩
      rfl

/-! ## C4: the recording-database year derivation -/

/-- The per-recording year derivation (as both the code and the spec
describe it): the year of the first-release-date, or else the first of
the releases' dates that yields one. -/
def specRecordingYear (rec : MBRecording) : Str :=
  let y := extract_year rec.firstReleaseDate
  if y.isEmpty then firstReleaseYear rec.releases else y

/-- Spec-side best year over the recordings the loop actually considers:
those with a non-empty `releases` list. -/
def specBestYear (recs : List MBRecording) : Str :=
  smallestNonemptyByNat
    ((recs.filter fun r => !r.releases.isEmpty).map specRecordingYear)

theorem firstReleaseYear_spec (rels : List MBRelease) :
    firstReleaseYear rels = [] ∨ isDigits4 (firstReleaseYear rels) := by
  induction rels with
  | nil => left; rfl
  | cons rel rest ih =>
      simp only [firstReleaseYear]
      split
      · exact ih
      case isFalse h =>
          exact Or.inr ((extract_year_spec rel.date).resolve_left (by simpa using h))

theorem specRecordingYear_spec (rec : MBRecording) :
    specRecordingYear rec = [] ∨ isDigits4 (specRecordingYear rec) := by
  unfold specRecordingYear
  dsimp only
  split
  · exact firstReleaseYear_spec rec.releases
  case isFalse h =>
      exact Or.inr ((extract_year_spec rec.firstReleaseDate).resolve_left (by simpa using h))

/-- Emptiness-filtered `smallestNonemptyByNat` ignores an empty head. -/
theorem sNBN_cons_nil (l : List Str) :
    smallestNonemptyByNat ([] :: l) = smallestNonemptyByNat l := by
  simp [smallestNonemptyByNat, List.filter]

/-- Folding the loop's keep-the-earlier update equals prepending the
accumulator as one more candidate, on 4-digit (or empty) strings. -/
theorem foldl_mbStep_eq_sNBN (ys : List Str) :
    ∀ (best : Str), (best = [] ∨ isDigits4 best) →
      (∀ y ∈ ys, y = [] ∨ isDigits4 y) →
      List.foldl
        (fun best year =>
          if !year.isEmpty && (best.isEmpty || lexLt year best) then year else best)
        best ys = smallestNonemptyByNat (best :: ys) := by
  induction ys with
  | nil =>
      intro best hb _
      simp only [List.foldl_nil, smallestNonemptyByNat]
      cases best with
      | nil => simp
      | cons c cs => simp [List.filter]
  | cons y ys ih =>
      intro best hb hall
      rw [List.foldl_cons]
      have hy := hall y (by simp)
      have hstep : (if !y.isEmpty && (best.isEmpty || lexLt y best) then y else best)
          = [] ∨ isDigits4 (if !y.isEmpty && (best.isEmpty || lexLt y best) then y else best) := by
        split
        · exact hy
        · exact hb
      rw [ih _ hstep (fun z hz => hall z (by simp [hz]))]
      -- combine-step absorption: the updated accumulator stands for
      -- the two candidates it was computed from
      cases hbe : best with
      | nil =>
          cases hye : y with
          | nil => simp [sNBN_cons_nil]
          | cons d ds =>
              have : (if !(d :: ds).isEmpty && (([] : Str).isEmpty || lexLt (d :: ds) []) then (d :: ds) else ([] : Str)) = d :: ds := by
                simp
              rw [this, sNBN_cons_nil]
      | cons c cs =>
          cases hye : y with
          | nil =>
              have : (if !([] : Str).isEmpty && ((c :: cs).isEmpty || lexLt [] (c :: cs)) then ([] : Str) else c :: cs) = c :: cs := by
                simp
              rw [this]
              have : smallestNonemptyByNat ((c :: cs) :: [] :: ys)
                  = smallestNonemptyByNat ((c :: cs) :: ys) := by
                simp [smallestNonemptyByNat, List.filter]
              rw [this]
          | cons d ds =>
              have hb4 : isDigits4 (c :: cs) := by
                rw [hbe] at hb
                rcases hb with h | h
                · exact absurd h (by simp)
                · exact h
              have hy4 : isDigits4 (d :: ds) := by
                rw [hye] at hy
                rcases hy with h | h
                · exact absurd h (by simp)
                · exact h
              have hcomb : (if !(d :: ds).isEmpty && ((c :: cs).isEmpty || lexLt (d :: ds) (c :: cs)) then d :: ds else c :: cs)
                  = if digitsToNat (d :: ds) < digitsToNat (c :: cs) then d :: ds else c :: cs := by
                by_cases hlt : lexLt (d :: ds) (c :: cs) = true
                · rw [if_pos (by simp [hlt]),
                    if_pos ((lexLt_iff_digitsToNat hy4 hb4).mp hlt)]
                · rw [if_neg (by simp [hlt]),
                    if_neg (fun hc => hlt ((lexLt_iff_digitsToNat hy4 hb4).mpr hc))]
              rw [hcomb]
              -- both nonempty: merging the two heads into their minimum
              -- does not change the filtered fold
              by_cases hlt : digitsToNat (d :: ds) < digitsToNat (c :: cs)
              · rw [if_pos hlt]
                simp only [smallestNonemptyByNat, List.filter, List.isEmpty_cons,
                  Bool.not_false, List.foldl_cons]
                rw [if_pos hlt]
              · rw [if_neg hlt]
                simp only [smallestNonemptyByNat, List.filter, List.isEmpty_cons,
                  Bool.not_false, List.foldl_cons]
                rw [if_neg hlt]

/-- The recording loop, run on recordings whose first release carries a
`release-group` object, computes the fold of the keep-the-earlier update
over the derived years of the recordings that have releases. -/
theorem mbRecordingsBestYear_ok (recs : List MBRecording) :
    ∀ best : Str,
      (∀ rec ∈ recs, ∀ rel0 rest, rec.releases = rel0 :: rest →
        rel0.releaseGroupSecondaryTypes.isSome = true) →
      mbRecordingsBestYear recs best =
        .ok (List.foldl
          (fun best year =>
            if !year.isEmpty && (best.isEmpty || lexLt year best) then year else best)
          best
          ((recs.filter fun r => !r.releases.isEmpty).map specRecordingYear)) := by
  induction recs with
  | nil => intro best _; rfl
  | cons rec rest ih =>
      intro best h
      cases hrel : rec.releases with
      | nil =>
          have hstep : mbRecordingsBestYear (rec :: rest) best =
              mbRecordingsBestYear rest best := by
            simp only [mbRecordingsBestYear, hrel]
          rw [hstep, ih best (fun r hr => h r (by simp [hr]))]
          have hfilter : ((rec :: rest).filter fun r => !r.releases.isEmpty) =
              rest.filter fun r => !r.releases.isEmpty := by
            simp [List.filter, hrel]
          rw [hfilter]
      | cons rel0 rels =>
          have hsome := h rec (by simp) rel0 rels hrel
          cases hrg : rel0.releaseGroupSecondaryTypes with
          | none => rw [hrg] at hsome; simp at hsome
          | some sts =>
              have hstep : mbRecordingsBestYear (rec :: rest) best =
                  mbRecordingsBestYear rest
                    (if !(specRecordingYear rec).isEmpty &&
                        (best.isEmpty || lexLt (specRecordingYear rec) best) then
                      specRecordingYear rec
                    else best) := by
                simp only [mbRecordingsBestYear, hrel, hrg, specRecordingYear]
              rw [hstep, ih _ (fun r hr => h r (by simp [hr]))]
              have hfilter : ((rec :: rest).filter fun r => !r.releases.isEmpty) =
                  rec :: rest.filter fun r => !r.releases.isEmpty := by

                simp [List.filter, hrel]
              rw [hfilter, List.map_cons, List.foldl_cons]

/-- C4 (amended).  In the recording-database fallback, recordings with an
empty releases list are skipped; for each remaining recording a year is
derived from its first-release-date, or else from the first of its
releases' dates that yields one, and the result is the numerically
earliest such year; the hypothesis that each considered recording's first
release carries a `release-group` object keeps the loop's (dead)
secondary-types access from raising. -/
theorem c4_amended_recording_db_earliest (recs : List MBRecording)
    (h : ∀ rec ∈ recs, ∀ rel0 rest, rec.releases = rel0 :: rest →
        rel0.releaseGroupSecondaryTypes.isSome = true) :
    mbRecordingsBestYear recs [] = .ok (specBestYear recs) := by
  rw [mbRecordingsBestYear_ok recs [] h]
  rw [foldl_mbStep_eq_sNBN _ [] (Or.inl rfl) ?hdig]
  · rw [sNBN_cons_nil]
    rfl
  case hdig =>
    intro y hy
    obtain ⟨r, _, rfl⟩ := List.mem_map.mp hy
    exact specRecordingYear_spec r

/-- C4 counterexample.  The claim derives a year from every returned
recording; but a recording with first-release-date `"2080-05-01"` whose
`releases` list is empty is skipped by the loop's `continue`, so the
derivable year `"2080"` is lost and the client yields no candidate. -/
theorem c4_counterexample :
    mbRecordingsBestYear [⟨"2080-05-01".data, []⟩] [] = .ok [] ∧
    extract_year "2080-05-01".data = "2080".data ∧
    fetch_musicbrainz_year "A".data "T".data
        (fun _ => .ok [⟨"2080-05-01".data, []⟩]) = (.ok [], 1) :=
  ⟨rfl, rfl, rfl⟩

/-- Witness for C4 (amended), on the spec's example: recordings with
first-release-dates `"2001-05-01"` and `"1999-03-02"` (each with one
release carrying a release-group) give `"1999"`. -/
theorem c4_amended_witness :
    mbRecordingsBestYear
        [⟨"2001-05-01".data, [⟨"2001-05-01".data, some []⟩]⟩,
         ⟨"1999-03-02".data, [⟨"1999-03-02".data, some []⟩]⟩] [] =
      .ok "1999".data := by
  have h := c4_amended_recording_db_earliest
    [⟨"2001-05-01".data, [⟨"2001-05-01".data, some []⟩]⟩,
     ⟨"1999-03-02".data, [⟨"1999-03-02".data, some []⟩]⟩]
    (by
      intro rec hrec rel0 rest hrel
      rcases List.mem_cons.mp hrec with rfl | hrec
      · simp only [List.cons.injEq] at hrel
        rcases hrel with ⟨rfl, rfl⟩
        rfl
      · rcases List.mem_cons.mp hrec with rfl | hrec
        · simp only [List.cons.injEq] at hrel
          rcases hrel with ⟨rfl, rfl⟩
          rfl
        · simp at hrec)
  rw [h]
  rfl

/-! ## C9: retry and failure policy of the network clients
(`main.py` `fetch_wikipedia_released_year` and `fetch_musicbrainz_year`) -/

/-- Lookahead of the released-field regex of `main.py`,
`(?=^\s*\|\s*|\n\x7d\x7d\s*$)`, at the end of the text after `\n\x7d\x7d`:
trailing `\s*` then end of string or, in MULTILINE mode, a position before
a newline. -/
def tailEndLookahead (u : Str) : Bool :=
  (u.dropWhile isSpaceChar).isEmpty || (u.takeWhile isSpaceChar).contains '\n'

/-- The two lookahead alternatives of the released-field regex at a
position (`atLS`: the position is a line start). -/
def releasedLookaheadAt (atLS : Bool) (s : Str) : Bool :=
  (atLS &&
    (match s.dropWhile isSpaceChar with
     | '|' :: _ => true
     | _ => false)) ||
  (match s with
   | '\n' :: '\x7d' :: '\x7d' :: u => tailEndLookahead u
   | _ => false)

/-- Lazy capture `(.+?)` of the released-field regex: the shortest
non-empty prefix whose end position satisfies the lookahead. -/
def capScan : Bool → Str → Str → Option Str
| _, acc, [] =>
    if !acc.isEmpty && releasedLookaheadAt false [] then some acc.reverse else none
| atLS, acc, c :: rest =>
    if !acc.isEmpty && releasedLookaheadAt atLS (c :: rest) then some acc.reverse
    else capScan (c = '\n') (c :: acc) rest

/-- Fixed part `\s*\|\s*released\s*=\s*` of the released-field regex at a
line start; returns the text after the `=`. -/
def releasedPrefixAt (s : Str) : Option Str :=
  match s.dropWhile isSpaceChar with
  | '|' :: r =>
      let r1 := r.dropWhile isSpaceChar
      if strStartsWith r1 "released".data then
        match (r1.drop 8).dropWhile isSpaceChar with
        | '=' :: r3 => some r3
        | _ => none
      else none
  | _ => none

/-- Match of the released-field regex at one line start: fixed prefix,
greedy `\s*`, then the lazy capture. -/
def releasedMatchAt (s : Str) : Option Str :=
  match releasedPrefixAt s with
  | none => none
  | some r3 =>
      let ws := r3.takeWhile isSpaceChar
      capScan (strEndsWith ws ['\n']) [] (r3.drop ws.length)

/-- Embeds `re.search` of the released-field regex: scan the line starts
left to right (the flag records whether the current position is one). -/
def releasedSearch : Bool → Str → Option Str
| _, [] => none
| atLS, c :: rest =>
    match (if atLS then releasedMatchAt (c :: rest) else none) with
    | some r => some r
    | none => releasedSearch (c = '\n') rest

/-- Tail of `fetch_wikipedia_released_year`: pull the `released` value
out of the page wikitext and take its earliest embedded year. -/
def releasedYearFromWikitext (wikitext : Str) : Str :=
  match releasedSearch true wikitext with
  | none => []
  | some releasedText => extract_earliest_year_from_text releasedText

/-- Embeds `main.py` `fetch_wikipedia_released_year`, with the network
modelled by two oracles: `osNet k` is the outcome of the `k`-th opensearch
call of this invocation and `ctNet` the outcome of the page-content call.
Every network failure is caught by the function's blanket handler and
yields the empty string at once — the function body has no retry logic.
The second component counts the network calls made. -/
def fetch_wikipedia_released_year_model (osNet : Nat → NetFailure ⊕ List Str)
    (ctNet : NetFailure ⊕ Str) (artist title : Str) : Str × Nat :=
  if artist.isEmpty || title.isEmpty then ([], 0)
  else
    match osNet 0 with
    | .inl _ => ([], 1)
    | .inr t0 =>
        if t0.isEmpty then ([], 1)
        else
          -- `if len(titles) > 1`: retry the search with `"<title> (song)"`
          let afterSecond : (NetFailure ⊕ List Str) × Nat :=
            if 1 < t0.length then (osNet 1, 2) else (.inr t0, 1)
          match afterSecond with
          | (.inl _, n) => ([], n)
          | (.inr t1, n) =>
              let afterThird : (NetFailure ⊕ List Str) × Nat :=
                if 1 < t1.length then (osNet n, n + 1) else (.inr t1, n)
              match afterThird with
              | (.inl _, n2) => ([], n2)
              | (.inr t2, n2) =>
                  if t2.isEmpty then ([], n2)
                  else
                    match ctNet with
                    | .inl _ => ([], n2 + 1)
                    | .inr wikitext =>
                        if wikitext.isEmpty then ([], n2 + 1)
                        else (releasedYearFromWikitext wikitext, n2 + 1)

/-- Oracle for the C9 counterexample: the first opensearch call is a
connection reset; any later call would have returned a single matching
title. -/
def c9osNet : Nat → NetFailure ⊕ List Str := fun k =>
  if k = 0 then .inl .reset else .inr ["T".data]

/-- C9 counterexample.  The claim attributes one-retry-on-reset/503 to
both external lookup clients and says failures never escape a client.
(1) The Wikipedia client performs no retry at all: after a reset on its
first call it returns the empty candidate having made exactly one network
call, although (2) a retry would have found `"1998"`.
(3) The MusicBrainz client lets a processing failure escape: on a
successful fetch whose recording's first release lacks a `release-group`
object, the dead secondary-types access raises `AttributeError` out of the
client instead of returning the empty string. -/
theorem c9_counterexample :
    fetch_wikipedia_released_year_model c9osNet
        (.inr "|released=1998\n\x7d\x7d".data) "A".data "T".data = ([], 1) ∧
    fetch_wikipedia_released_year_model (fun _ => .inr ["T".data])
        (.inr "|released=1998\n\x7d\x7d".data) "A".data "T".data = ("1998".data, 2) ∧
    (fetch_musicbrainz_year "A".data "T".data
        (fun _ => .ok [⟨"1999-01-01".data, [⟨"1999-01-01".data, none⟩]⟩])).1 =
      .error "AttributeError: list object has no attribute get".data :=
  ⟨rfl, rfl, rfl⟩

/-- C9 (amended).  Retry and failure policy of the clients as coded:
the MusicBrainz client attempts exactly one retry after a connection-reset
or HTTP-503 failure (a successful first attempt makes one call; a
retryable failure always makes two calls, using the second outcome; any
other first failure, or any second failure, yields the empty candidate
without an exception); the Wikipedia client never retries — any failure
of its first call yields the empty candidate after exactly that one call;
however, failures raised while processing a successful MusicBrainz
response propagate out of that client (see `c9_counterexample`). -/
theorem c9_amended_retry_policy :
    (∀ (a t : Str) (att : Nat → MBOutcome) (recs : List MBRecording),
      a.isEmpty = false → t.isEmpty = false → att 0 = .ok recs →
      fetch_musicbrainz_year a t att = (mbRecordingsBestYear recs [], 1)) ∧
    (∀ (a t : Str) (att : Nat → MBOutcome) (f : NetFailure),
      a.isEmpty = false → t.isEmpty = false → att 0 = .fail f → f ≠ .other →
      (∀ recs, att 1 = .ok recs →
        fetch_musicbrainz_year a t att = (mbRecordingsBestYear recs [], 2)) ∧
      (∀ f2, att 1 = .fail f2 → fetch_musicbrainz_year a t att = (.ok [], 2))) ∧
    (∀ (a t : Str) (att : Nat → MBOutcome),
      a.isEmpty = false → t.isEmpty = false → att 0 = .fail .other →
      fetch_musicbrainz_year a t att = (.ok [], 1)) ∧
    (∀ (osNet : Nat → NetFailure ⊕ List Str) (ctNet : NetFailure ⊕ Str)
        (a t : Str) (f : NetFailure),
      a.isEmpty = false → t.isEmpty = false → osNet 0 = .inl f →
      fetch_wikipedia_released_year_model osNet ctNet a t = ([], 1)) := by
  refine ⟨?_, ?_, ?_, ?_⟩
  · intro a t att recs ha ht h0
    simp [fetch_musicbrainz_year, mbFetchLoop, ha, ht, h0]
  · intro a t att f ha ht h0 hf
    have hret : (f = NetFailure.reset || f = NetFailure.http503) = true := by
      cases f <;> simp_all
    constructor
    · intro recs h1
      simp [fetch_musicbrainz_year, mbFetchLoop, ha, ht, h0, h1, hret]
    · intro f2 h1
      simp [fetch_musicbrainz_year, mbFetchLoop, ha, ht, h0, h1, hret]
  · intro a t att ha ht h0
    simp [fetch_musicbrainz_year, mbFetchLoop, ha, ht, h0]
  · intro osNet ctNet a t f ha ht h0
    simp [fetch_wikipedia_released_year_model, ha, ht, h0]

/-- Witness for C9 (amended): the Wikipedia client under the concrete
reset-then-success oracle makes one call and returns the empty candidate;
the MusicBrainz client under an other-failure oracle returns the empty
candidate after one call. -/
theorem c9_amended_witness :
    fetch_wikipedia_released_year_model c9osNet
        (.inr "|released=1998\n\x7d\x7d".data) "A".data "T".data = ([], 1) ∧
    fetch_musicbrainz_year "A".data "T".data (fun _ => .fail .other) = (.ok [], 1) := by
  have h := c9_amended_retry_policy
  exact ⟨h.2.2.2 c9osNet (.inr "|released=1998\n\x7d\x7d".data) "A".data "T".data
      .reset rfl rfl rfl,
    h.2.2.1 "A".data "T".data (fun _ => .fail .other) rfl rfl rfl⟩

/-! ## C8: idempotence of `_strip_title_parenthetical_terms`.

The proof shows that the output of the full pass is a fixed point of each
of its three stages: it contains no further qualifier-parenthetical match
(`goodB`), no whitespace run of length two or more (`noTwoB`), and no
leading or trailing whitespace. -/

/-- No two adjacent whitespace characters. -/
def noTwoB : Str → Bool
| [] => true
| c :: rest => !(isSpaceChar c && headSpace rest) && noTwoB rest

theorem noTwoB_tail {c : Char} {l : Str} (h : noTwoB (c :: l) = true) :
    noTwoB l = true := by
  simp only [noTwoB, Bool.and_eq_true] at h
  exact h.2

/-- The collapse scan's output never contains two adjacent whitespace
characters. -/
theorem noTwoB_collapseWsAux : ∀ (v : Str) (b : Bool),
    noTwoB (collapseWsAux b v) = true := by
  intro v
  induction v with
  | nil => intro b; rfl
  | cons c rest ih =>
      intro b
      simp only [collapseWsAux]
      by_cases hc : isSpaceChar c = true
      · by_cases hh : headSpace rest = true
        · simp only [hc, hh, Bool.and_self, if_true]
          exact ih true
        · have hhf : headSpace rest = false := by simpa using hh
          simp only [hc, hhf, Bool.and_false, if_false]
          have hhead : headSpace (collapseWsAux false rest) = false := by
            cases rest with
            | nil => rfl
            | cons d r2 =>
                have hd : isSpaceChar d = false := by
                  simpa [headSpace] using hhf
                simp only [collapseWsAux, hd, Bool.false_and, if_false]
                simp [headSpace, hd]
          simp only [noTwoB, hhead, Bool.and_false, Bool.not_false, Bool.true_and]
          exact ih false
      · have hcf : isSpaceChar c = false := by simpa using hc
        simp only [hcf, Bool.false_and, if_false, noTwoB]
        simp only [hcf, Bool.false_and, Bool.not_false, Bool.true_and]
        exact ih false

/-- A whitespace-run-free string is a fixed point of the collapse scan. -/
theorem collapseWsAux_of_noTwoB : ∀ (v : Str), noTwoB v = true →
    collapseWsAux false v = v := by
  intro v
  induction v with
  | nil => intro _; rfl
  | cons c rest ih =>
      intro h
      have h1 : (isSpaceChar c && headSpace rest) = false := by
        simp only [noTwoB, Bool.and_eq_true, Bool.not_eq_true'] at h
        exact h.1
      have h2 := noTwoB_tail h
      simp only [collapseWsAux]
      by_cases hc : isSpaceChar c = true
      · have hh : headSpace rest = false := by
          rcases Bool.and_eq_false_iff.mp h1 with h' | h'
          · exact absurd hc (by simp [h'])
          · exact h'
        simp [hc, hh, ih h2]
      · have hcf : isSpaceChar c = false := by simpa using hc
        simp [hcf, ih h2]

/-- `noTwoB` of a prefix. -/
theorem noTwoB_append_left : ∀ {u v : Str}, noTwoB (u ++ v) = true →
    noTwoB u = true := by
  intro u
  induction u with
  | nil => intro v _; rfl
  | cons c u' ih =>
      intro v h
      simp only [List.cons_append, noTwoB, Bool.and_eq_true, Bool.not_eq_true'] at h
      simp only [noTwoB, Bool.and_eq_true, Bool.not_eq_true']
      refine ⟨?_, ih h.2⟩
      cases u' with
      | nil => simp [headSpace]
      | cons d u'' =>
          have hhead : headSpace ((d :: u'') ++ v) = headSpace (d :: u'') := by
            simp [headSpace]
          rw [← hhead]
          exact h.1

/-- `noTwoB` of a suffix. -/
theorem noTwoB_dropWhile {p : Char → Bool} : ∀ {l : Str},
    noTwoB l = true → noTwoB (l.dropWhile p) = true := by
  intro l
  induction l with
  | nil => intro h; exact h
  | cons c rest ih =>
      intro h
      by_cases hc : p c = true
      · rw [List.dropWhile_cons_of_pos hc]
        exact ih (noTwoB_tail h)
      · rw [List.dropWhile_cons_of_neg (by simpa using hc)]
        exact h

/-- `dropTrailing` keeps a prefix of its argument. -/
theorem dropTrailing_prefix (p : Char → Bool) (l : Str) :
    ∃ v, l = dropTrailing p l ++ v := by
  refine ⟨(l.reverse.takeWhile p).reverse, ?_⟩
  unfold dropTrailing
  rw [← List.reverse_append, List.takeWhile_append_dropWhile, List.reverse_reverse]

theorem noTwoB_pyStrip {l : Str} (h : noTwoB l = true) :
    noTwoB (pyStrip l) = true := by
  unfold pyStrip
  obtain ⟨v, hv⟩ := dropTrailing_prefix isSpaceChar (l.dropWhile isSpaceChar)
  have hd : noTwoB (l.dropWhile isSpaceChar) = true := noTwoB_dropWhile h
  rw [hv] at hd
  exact noTwoB_append_left hd

/-- The head of a `dropWhile` result does not satisfy the predicate. -/
theorem dropWhile_head_not {p : Char → Bool} : ∀ {l : Str},
    l.dropWhile p = [] ∨ ∃ c r, l.dropWhile p = c :: r ∧ p c = false := by
  intro l
  induction l with
  | nil => left; rfl
  | cons c rest ih =>
      by_cases hc : p c = true
      · rw [List.dropWhile_cons_of_pos hc]
        exact ih
      · rw [List.dropWhile_cons_of_neg (by simpa using hc)]
        exact Or.inr ⟨c, rest, rfl, by simpa using hc⟩

theorem dropWhile_idem (p : Char → Bool) (l : Str) :
    (l.dropWhile p).dropWhile p = l.dropWhile p := by
  rcases dropWhile_head_not (p := p) (l := l) with h | ⟨c, r, h, hc⟩
  · rw [h]; rfl
  · rw [h, List.dropWhile_cons_of_neg (by simp [hc])]

theorem dropTrailing_idem (p : Char → Bool) (l : Str) :
    dropTrailing p (dropTrailing p l) = dropTrailing p l := by
  unfold dropTrailing
  rw [List.reverse_reverse, dropWhile_idem]

/-- Python `strip` is idempotent. -/
theorem pyStrip_idem (l : Str) : pyStrip (pyStrip l) = pyStrip l := by
  unfold pyStrip
  have hstep : (dropTrailing isSpaceChar (l.dropWhile isSpaceChar)).dropWhile isSpaceChar
      = dropTrailing isSpaceChar (l.dropWhile isSpaceChar) := by
    rcases dropWhile_head_not (p := isSpaceChar) (l := l) with h | ⟨c, r, h, hc⟩
    · rw [h]
      rfl
    · -- the stripped string is a prefix of `dropWhile`, whose head is the
      -- same non-whitespace character (or the prefix is empty)
      cases hdt : dropTrailing isSpaceChar (l.dropWhile isSpaceChar) with
      | nil => rfl
      | cons d r2 =>
          obtain ⟨v, hv⟩ := dropTrailing_prefix isSpaceChar (l.dropWhile isSpaceChar)
          rw [hdt] at hv
          rw [h] at hv
          have : d = c := by
            have := hv
            simp only [List.cons_append, List.cons.injEq] at this
            exact this.1.symm
          rw [List.dropWhile_cons_of_neg (by simp [this, hc])]
  rw [hstep, dropTrailing_idem]

/-! ### Character facts -/

theorem space_ne_lparen {c : Char} (h : isSpaceChar c = true) : c ≠ '(' := by
  intro hc
  subst hc
  simp [isSpaceChar] at h

theorem space_ne_rparen {c : Char} (h : isSpaceChar c = true) : c ≠ ')' := by
  intro hc
  subst hc
  simp [isSpaceChar] at h

theorem space_not_word {c : Char} (h : isSpaceChar c = true) :
    isWordChar c = false := by
  simp only [isSpaceChar, Bool.or_eq_true, decide_eq_true_eq] at h
  simp only [isWordChar, isDigitChar, Bool.or_eq_false_iff, Bool.and_eq_false_iff,
    decide_eq_false_iff_not]
  constructor
  · constructor
    · constructor <;> omega
    · omega
  · intro hc
    subst hc
    simp at h

/-- A character whose lower-casing is a lower-case letter is a letter:
not whitespace, not a parenthesis, and a word character. -/
theorem char_of_letter {c p : Char} (hl : lowerChar c = p)
    (h97 : 97 ≤ p.toNat) (h122 : p.toNat ≤ 122) :
    isSpaceChar c = false ∧ c ≠ '(' ∧ c ≠ ')' ∧ isWordChar c = true := by
  unfold lowerChar at hl
  split at hl
  case isTrue hc =>
      simp only [Bool.and_eq_true, decide_eq_true_eq] at hc
      refine ⟨by simp [isSpaceChar]; omega, ?_, ?_, ?_⟩
      · intro h
        subst h
        simp at hc
      · intro h
        subst h
        simp at hc
      · simp [isWordChar]
        omega
  case isFalse hc =>
      subst hl
      simp only [Bool.and_eq_true, decide_eq_true_eq, not_and, not_le] at hc
      refine ⟨by simp [isSpaceChar]; omega, ?_, ?_, ?_⟩
      · intro h
        subst h
        simp at h97
      · intro h
        subst h
        simp at h97
      · simp [isWordChar]
        omega

/-- Every qualifier term is a nonempty string of lower-case letters. -/
theorem qualifierTerms_letters :
    ∀ t ∈ qualifierTerms, t ≠ [] ∧ ∀ p ∈ t, 97 ≤ p.toNat ∧ p.toNat ≤ 122 := by
  decide

/-! ### `takeWhile`/`dropWhile` facts -/

theorem drop_takeWhile_length (p : Char → Bool) : ∀ (l : Str),
    l.drop (l.takeWhile p).length = l.dropWhile p := by
  intro l
  induction l with
  | nil => rfl
  | cons c rest ih =>
      by_cases hc : p c = true
      · rw [List.takeWhile_cons_of_pos hc, List.dropWhile_cons_of_pos hc]
        simpa using ih
      · rw [List.takeWhile_cons_of_neg (by simpa using hc),
          List.dropWhile_cons_of_neg (by simpa using hc)]
        rfl

theorem takeWhile_append_of_mem_not {p : Char → Bool} : ∀ {l : Str},
    (∃ x ∈ l, p x = false) → ∀ v,
      (l ++ v).takeWhile p = l.takeWhile p ∧
      (l ++ v).dropWhile p = l.dropWhile p ++ v := by
  intro l
  induction l with
  | nil =>
      intro h
      obtain ⟨x, hx, _⟩ := h
      simp at hx
  | cons c rest ih =>
      intro h v
      by_cases hc : p c = true
      · have hrest : ∃ x ∈ rest, p x = false := by
          obtain ⟨x, hx, hpx⟩ := h
          rcases List.mem_cons.mp hx with rfl | hx
          · rw [hc] at hpx; cases hpx
          · exact ⟨x, hx, hpx⟩
        obtain ⟨h1, h2⟩ := ih hrest v
        constructor
        · rw [List.cons_append, List.takeWhile_cons_of_pos hc,
            List.takeWhile_cons_of_pos hc, h1]
        · rw [List.cons_append, List.dropWhile_cons_of_pos hc,
            List.dropWhile_cons_of_pos hc, h2]
      · have hcf : p c = false := by simpa using hc
        constructor
        · rw [List.cons_append, List.takeWhile_cons_of_neg (by simp [hcf]),
            List.takeWhile_cons_of_neg (by simp [hcf])]
        · rw [List.cons_append, List.dropWhile_cons_of_neg (by simp [hcf]),
            List.dropWhile_cons_of_neg (by simp [hcf])]
          rfl

theorem takeWhile_all_of_mem {p : Char → Bool} : ∀ {l : Str},
    (∀ x ∈ l, p x = true) → l.takeWhile p = l := by
  intro l
  induction l with
  | nil => intro _; rfl
  | cons c rest ih =>
      intro h
      rw [List.takeWhile_cons_of_pos (h c (by simp))]
      rw [ih (fun x hx => h x (by simp [hx]))]

/-! ### A position with a qualifier-parenthetical match -/

/-- Does the qualifier parenthetical pattern (without its leading `\s*`)
match right here: an opening parenthesis whose body — up to the first
closing parenthesis, which must exist — contains a bounded term? -/
def badHead (s : Str) : Bool :=
  match s with
  | '(' :: r =>
      (match r.drop (r.takeWhile (· ≠ ')')).length with
       | ')' :: _ => bodyHasTerm (r.takeWhile (· ≠ ')'))
       | _ => false)
  | _ => false

/-- No suffix of the string carries a match of the qualifier pattern. -/
def goodB : Str → Bool
| [] => true
| c :: rest => !badHead (c :: rest) && goodB rest

theorem goodB_tail {c : Char} {l : Str} (h : goodB (c :: l) = true) :
    goodB l = true := by
  simp only [goodB, Bool.and_eq_true] at h
  exact h.2

theorem goodB_not_badHead {l : Str} (h : goodB l = true) : badHead l = false := by
  cases l with
  | nil => rfl
  | cons c rest =>
      simp only [goodB, Bool.and_eq_true, Bool.not_eq_true'] at h
      exact h.1

theorem goodB_dropWhile {p : Char → Bool} : ∀ {l : Str}, goodB l = true →
    goodB (l.dropWhile p) = true := by
  intro l
  induction l with
  | nil => intro h; exact h
  | cons c rest ih =>
      intro h
      by_cases hc : p c = true
      · rw [List.dropWhile_cons_of_pos hc]
        exact ih (goodB_tail h)
      · rw [List.dropWhile_cons_of_neg (by simpa using hc)]
        exact h

/-- Reduction of `badHead` at an opening parenthesis. -/
theorem badHead_lparen (r : Str) : badHead ('(' :: r) =
    (match r.drop (r.takeWhile (· ≠ ')')).length with
     | ')' :: _ => bodyHasTerm (r.takeWhile (· ≠ ')'))
     | _ => false) := rfl

/-- Reduction of `badHead` at any other character. -/
theorem badHead_other {c : Char} (hc : c ≠ '(') (r : Str) :
    badHead (c :: r) = false := by
  unfold badHead
  split
  case h_1 r' heq =>
      injection heq with h1 h2
      exact absurd h1 hc
  case h_2 => rfl

/-- A match at the head of a prefix is a match at the head of the whole
string: the first closing parenthesis and the body below it agree. -/
theorem badHead_append {u : Str} (h : badHead u = true) (v : Str) :
    badHead (u ++ v) = true := by
  cases u with
  | nil => simp [badHead] at h
  | cons c r =>
      by_cases hc : c = '('
      · subst hc
        rw [badHead_lparen] at h
        rcases hdr0 : List.dropWhile (fun x => decide (x ≠ ')')) r with _ | ⟨d, rest⟩
        · have hdrD : r.drop (r.takeWhile (· ≠ ')')).length = [] := by
            rw [drop_takeWhile_length]
            exact hdr0
          rw [hdrD] at h
          have hfalse : (false : Bool) = true := h
          cases hfalse
        · have hd : d = ')' := by
            rcases dropWhile_head_not (p := fun x => decide (x ≠ ')')) (l := r) with h' | ⟨e, r2, h', he⟩
            · rw [h'] at hdr0
              cases hdr0
            · rw [h'] at hdr0
              injection hdr0 with he1 he2
              rw [he1] at he
              simpa using he
          subst hd
          have hdrD : r.drop (r.takeWhile (· ≠ ')')).length = ')' :: rest := by
            rw [drop_takeWhile_length]
            exact hdr0
          have hsplit : r = List.takeWhile (fun x => decide (x ≠ ')')) r ++ ')' :: rest := by
            conv_lhs => rw [← List.takeWhile_append_dropWhile (fun x => decide (x ≠ ')')) r]
            rw [hdr0]
          have hmem : ∃ x ∈ r, (decide (x ≠ ')')) = false := by
            refine ⟨')', ?_, by simp⟩
            rw [hsplit]
            simp
          obtain ⟨htw, hdw⟩ := takeWhile_append_of_mem_not hmem v
          have hbody : bodyHasTerm ((r ++ v).takeWhile (· ≠ ')')) = true := by
            rw [htw]
            rw [hdrD] at h
            exact h
          have hdrop2 : (r ++ v).drop ((r ++ v).takeWhile (· ≠ ')')).length
              = ')' :: (rest ++ v) := by
            rw [drop_takeWhile_length, hdw, hdr0]
            rfl
          show badHead ('(' :: (r ++ v)) = true
          rw [badHead_lparen, hdrop2]
          exact hbody
      · have hco : badHead (c :: r) = false := badHead_other hc r
        rw [hco] at h
        cases h

theorem goodB_append_left : ∀ {u v : Str}, goodB (u ++ v) = true →
    goodB u = true := by
  intro u
  induction u with
  | nil => intro v _; rfl
  | cons c u' ih =>
      intro v h
      simp only [List.cons_append, goodB, Bool.and_eq_true, Bool.not_eq_true'] at h
      simp only [List.append_eq] at h
      simp only [goodB, Bool.and_eq_true, Bool.not_eq_true']
      refine ⟨?_, ih h.2⟩
      by_cases hb : badHead (c :: u') = true
      · have := badHead_append hb v
        rw [List.cons_append] at this
        rw [this] at h
        cases h.1
      · simpa using hb

theorem mem_takeWhile_pred {p : Char → Bool} : ∀ {l : Str} {x : Char},
    x ∈ l.takeWhile p → p x = true := by
  intro l
  induction l with
  | nil => intro x hx; simp at hx
  | cons c rest ih =>
      intro x hx
      by_cases hc : p c = true
      · rw [List.takeWhile_cons_of_pos hc] at hx
        rcases List.mem_cons.mp hx with rfl | hx
        · exact hc
        · exact ih hx
      · rw [List.takeWhile_cons_of_neg (by simpa using hc)] at hx
        simp at hx

/-- A successful `tryMatch` decomposes the string as whitespace, an
opening parenthesis, a parenthesis-free body containing a bounded term,
a closing parenthesis and a tail. -/
theorem tryMatch_decomp {u : Str} {n : Nat} (h : tryMatch u = some n) :
    ∃ w body tail, u = w ++ '(' :: (body ++ ')' :: tail) ∧
      (∀ x ∈ w, isSpaceChar x = true) ∧
      (∀ x ∈ body, x ≠ ')') ∧
      bodyHasTerm body = true := by
  unfold tryMatch at h
  dsimp only at h
  rw [drop_takeWhile_length] at h
  split at h
  case h_2 => cases h
  case h_1 r heq =>
      rw [drop_takeWhile_length] at h
      split at h
      case h_2 => cases h
      case h_1 r3 heq2 =>
          split at h
          case isFalse => cases h
          case isTrue hterm =>
              refine ⟨u.takeWhile isSpaceChar, r.takeWhile (· ≠ ')'), r3, ?_, ?_, ?_, hterm⟩
              · have hr : r = List.takeWhile (fun x => decide (x ≠ ')')) r ++ ')' :: r3 := by
                  conv_lhs => rw [← List.takeWhile_append_dropWhile (fun x => decide (x ≠ ')')) r]
                  rw [heq2]
                conv_lhs => rw [← List.takeWhile_append_dropWhile isSpaceChar u]
                rw [heq]
                conv_lhs => rw [hr]
              · intro x hx
                exact mem_takeWhile_pred hx
              · intro x hx
                simpa using mem_takeWhile_pred hx

/-! ### Transfer machinery for the idempotence of the qualifier stripper -/

/-- The scan flag is monotone: a term found with some flag is found with
flag `true`. -/
theorem hasAux_flag_mono : ∀ {l : Str} {b : Bool},
    hasBoundedTermAux b l = true → hasBoundedTermAux true l = true := by
  intro l
  induction l with
  | nil => intro b h; exact h
  | cons c rest ih =>
      intro b h
      simp only [hasBoundedTermAux, Bool.or_eq_true, Bool.and_eq_true] at h ⊢
      rcases h with ⟨_, hth⟩ | hrest
      · exact Or.inl (by simp [hth])
      · exact Or.inr hrest

/-- No qualifier term starts at a whitespace character. -/
theorem ciStartsWith_space_letter {c p : Char} {l ps : Str}
    (hs : isSpaceChar c = true) (h97 : 97 ≤ p.toNat) (h122 : p.toNat ≤ 122) :
    ciStartsWith (c :: l) (p :: ps) = false := by
  simp only [ciStartsWith, Bool.and_eq_false_iff]
  left
  simp only [decide_eq_false_iff_not]
  intro hlc
  have := (char_of_letter hlc h97 h122).1
  rw [hs] at this
  cases this

/-- The term test fails at a whitespace character. -/
theorem termHereOk_space {c : Char} {l : Str} (hs : isSpaceChar c = true) :
    termHereOk (c :: l) = false := by
  unfold termHereOk
  rw [List.any_eq_false]
  intro t ht
  obtain ⟨hne, hlet⟩ := qualifierTerms_letters t ht
  cases t with
  | nil => exact absurd rfl hne
  | cons p ps =>
      obtain ⟨h97, h122⟩ := hlet p (by simp)
      rw [ciStartsWith_space_letter hs h97 h122]
      simp

/-- A `dropWhile` ending empty means every element satisfied the predicate. -/
theorem all_of_dropWhile_nil {p : Char → Bool} : ∀ {l : Str},
    l.dropWhile p = [] → ∀ x ∈ l, p x = true := by
  intro l
  induction l with
  | nil => intro _ x hx; simp at hx
  | cons c rest ih =>
      intro h x hx
      by_cases hc : p c = true
      · rw [List.dropWhile_cons_of_pos hc] at h
        rcases List.mem_cons.mp hx with rfl | hx
        · exact hc
        · exact ih h x hx
      · rw [List.dropWhile_cons_of_neg (by simpa using hc)] at h
        cases h

/-- When every element satisfies the predicate, `dropWhile` drops them all. -/
theorem dropWhile_nil_of_all {p : Char → Bool} : ∀ {l : Str},
    (∀ x ∈ l, p x = true) → l.dropWhile p = [] := by
  intro l
  induction l with
  | nil => intro _; rfl
  | cons c rest ih =>
      intro h
      rw [List.dropWhile_cons_of_pos (h c (by simp))]
      exact ih fun x hx => h x (by simp [hx])

/-- When every element of the left part satisfies the predicate,
`takeWhile` and `dropWhile` of an append pass through it. -/
theorem takeWhile_append_all {p : Char → Bool} : ∀ {l1 : Str} (l2 : Str),
    (∀ x ∈ l1, p x = true) →
      (l1 ++ l2).takeWhile p = l1 ++ l2.takeWhile p ∧
      (l1 ++ l2).dropWhile p = l2.dropWhile p := by
  intro l1
  induction l1 with
  | nil => intro l2 _; exact ⟨rfl, rfl⟩
  | cons c rest ih =>
      intro l2 h
      have hc : p c = true := h c (by simp)
      obtain ⟨h1, h2⟩ := ih l2 fun x hx => h x (by simp [hx])
      constructor
      · rw [List.cons_append, List.takeWhile_cons_of_pos hc, h1, List.cons_append]
      · rw [List.cons_append, List.dropWhile_cons_of_pos hc, h2]

/-- A term bounded in a body stays bounded after extending the string to the
left across an opening parenthesis, whatever the incoming flag. -/
theorem hasAux_lparen_ext {body : Str} (h : hasBoundedTermAux true body = true) :
    ∀ (X : Str) (g : Bool), hasBoundedTermAux g (X ++ '(' :: body) = true := by
  intro X
  induction X with
  | nil =>
      intro g
      simp only [List.nil_append, hasBoundedTermAux, Bool.or_eq_true]
      right
      have hw : isWordChar '(' = false := by decide
      rw [hw]
      exact h
  | cons x X ih =>
      intro g
      simp only [List.cons_append, hasBoundedTermAux, Bool.or_eq_true]
      exact Or.inr (ih _)

/-- Two decompositions of a string at its first closing parenthesis agree. -/
theorem first_rparen_unique : ∀ {X Y : Str} {x y : Str},
    (∀ a ∈ X, a ≠ ')') → (∀ a ∈ x, a ≠ ')') →
    X ++ ')' :: Y = x ++ ')' :: y → X = x ∧ Y = y := by
  intro X
  induction X with
  | nil =>
      intro Y x y _ hx h
      cases x with
      | nil =>
          simp only [List.nil_append] at h
          injection h with _ h2
          exact ⟨rfl, h2⟩
      | cons b x2 =>
          simp only [List.nil_append, List.cons_append] at h
          injection h with h1 _
          exact absurd h1.symm (hx b (by simp))
  | cons a X2 ih =>
      intro Y x y hX hx h
      cases x with
      | nil =>
          simp only [List.nil_append, List.cons_append] at h
          injection h with h1 _
          exact absurd h1 (hX a (by simp))
      | cons b x2 =>
          simp only [List.cons_append] at h
          injection h with h1 h2
          obtain ⟨hXx, hYy⟩ := ih (fun u hu => hX u (by simp [hu]))
            (fun u hu => hx u (by simp [hu])) h2
          exact ⟨by rw [h1, hXx], hYy⟩

/-- A successful match starts with whitespace or an opening parenthesis. -/
theorem tryMatch_head_class {c : Char} {l : Str} {n : Nat}
    (h : tryMatch (c :: l) = some n) : isSpaceChar c = true ∨ c = '(' := by
  obtain ⟨w, body, tail, hu, hw, _, _⟩ := tryMatch_decomp h
  cases w with
  | nil =>
      right
      simp only [List.nil_append, List.cons.injEq] at hu
      exact hu.1
  | cons a w2 =>
      left
      simp only [List.cons_append, List.cons.injEq] at hu
      rw [hu.1]
      exact hw a (by simp)

/-- The pattern never matches at a non-space character other than an
opening parenthesis. -/
theorem tryMatch_none_nonlp {c : Char} {l : Str}
    (h1 : isSpaceChar c = false) (h2 : c ≠ '(') : tryMatch (c :: l) = none := by
  cases htm : tryMatch (c :: l) with
  | none => rfl
  | some n =>
      rcases tryMatch_head_class htm with h | h
      · rw [h1] at h
        cases h
      · exact absurd h h2

/-- A failed match at an opening parenthesis means the rest has no closing
parenthesis at all, or the body up to the first one has no bounded term. -/
theorem tryMatch_lparen_none {r : Str} (h : tryMatch ('(' :: r) = none) :
    List.dropWhile (fun x => decide (x ≠ ')')) r = [] ∨
      bodyHasTerm (List.takeWhile (fun x => decide (x ≠ ')')) r) = false := by
  unfold tryMatch at h
  dsimp only at h
  rw [drop_takeWhile_length, List.dropWhile_cons_of_neg (by decide)] at h
  split at h
  case h_2 hshape =>
      exact absurd rfl (hshape r)
  case h_1 r2 heq =>
      injection heq with h1 h2
      subst h2
      rw [drop_takeWhile_length] at h
      split at h
      case h_1 r3 heq2 =>
          split at h
          case isTrue => cases h
          case isFalse hb =>
              right
              simpa using hb
      case h_2 hshape =>
          left
          rcases dropWhile_head_not (p := fun x => decide (x ≠ ')')) (l := r) with
            hnil | ⟨e, r4, hcons, he⟩
          · exact hnil
          · have : e = ')' := by simpa using he
            subst this
            exact absurd hcons (by intro hx; exact hshape r4 hx)

/-- Characters of the stripped string come from the input or are the
replacement space. -/
theorem mem_stripParenPass : ∀ {v : Str} {x : Char},
    x ∈ stripParenPass v → x ∈ v ∨ x = ' ' := by
  intro v
  induction v using stripParenPass.induct with
  | case1 =>
      intro x hx
      simp [stripParenPass] at hx
  | case2 c rest n hmatch ih =>
      intro x hx
      simp only [stripParenPass, hmatch] at hx
      rcases List.mem_cons.mp hx with rfl | hx
      · right; rfl
      · rcases ih hx with hmem | hsp
        · exact Or.inl (List.mem_cons_of_mem c (List.mem_of_mem_drop hmem))
        · exact Or.inr hsp
  | case3 c rest hmatch ih =>
      intro x hx
      simp only [stripParenPass, hmatch] at hx
      rcases List.mem_cons.mp hx with rfl | hx
      · exact Or.inl (by simp)
      · rcases ih hx with hmem | hsp
        · exact Or.inl (List.mem_cons_of_mem c hmem)
        · exact Or.inr hsp

/-- A suffix of a match-free string is match-free. -/
theorem goodB_append_right : ∀ {u v : Str}, goodB (u ++ v) = true →
    goodB v = true := by
  intro u
  induction u with
  | nil => intro v h; exact h
  | cons c u2 ih =>
      intro v h
      rw [List.cons_append] at h
      exact ih (goodB_tail h)

/-- The scan copies a closing-parenthesis-free, term-free prefix and the
closing parenthesis after it verbatim. -/
theorem stripParenPass_copy : ∀ (A : Str) (g : Bool) (B : Str),
    (∀ a ∈ A, a ≠ ')') → hasBoundedTermAux g A = false →
    stripParenPass (A ++ ')' :: B) = A ++ ')' :: stripParenPass B := by
  intro A
  induction A with
  | nil =>
      intro g B _ _
      rw [List.nil_append, List.nil_append]
      have hnone : tryMatch (')' :: B) = none :=
        tryMatch_none_nonlp (by decide) (by decide)
      simp only [stripParenPass, hnone]
  | cons a A2 ih =>
      intro g B hA hterm
      have hA2 : ∀ u ∈ A2, u ≠ ')' := fun u hu => hA u (by simp [hu])
      have hterm2 : hasBoundedTermAux (!isWordChar a) A2 = false := by
        simp only [hasBoundedTermAux, Bool.or_eq_false_iff] at hterm
        exact hterm.2
      have hnone : tryMatch (a :: (A2 ++ ')' :: B)) = none := by
        cases htm : tryMatch (a :: (A2 ++ ')' :: B)) with
        | none => rfl
        | some n =>
            obtain ⟨w, body, tail, hu, hw, hbody, hbt⟩ := tryMatch_decomp htm
            have hu2 : (a :: A2) ++ ')' :: B = (w ++ '(' :: body) ++ ')' :: tail := by
              rw [List.cons_append, hu]
              simp [List.append_assoc]
            have hfree2 : ∀ u ∈ w ++ '(' :: body, u ≠ ')' := by
              intro u hu3
              rcases List.mem_append.mp hu3 with h1 | h1
              · exact space_ne_rparen (hw u h1)
              · rcases List.mem_cons.mp h1 with rfl | h1
                · decide
                · exact hbody u h1
            obtain ⟨hXeq, _⟩ := first_rparen_unique hA hfree2 hu2
            have hcontra : hasBoundedTermAux g (a :: A2) = true := by
              rw [hXeq]
              exact hasAux_lparen_ext hbt w g
            rw [hcontra] at hterm
            cases hterm
      calc stripParenPass ((a :: A2) ++ ')' :: B)
          = stripParenPass (a :: (A2 ++ ')' :: B)) := by rw [List.cons_append]
        _ = a :: stripParenPass (A2 ++ ')' :: B) := by
              simp only [stripParenPass, hnone]
        _ = a :: (A2 ++ ')' :: stripParenPass B) := by
              rw [ih (!isWordChar a) B hA2 hterm2]
        _ = (a :: A2) ++ ')' :: stripParenPass B := by rw [List.cons_append]

/-- The output of the qualifier-stripping scan carries no match of the
pattern at any suffix. -/
theorem goodB_stripParenPass : ∀ (v : Str), goodB (stripParenPass v) = true := by
  intro v
  induction v using stripParenPass.induct with
  | case1 => simp [stripParenPass, goodB]
  | case2 c rest n hmatch ih =>
      simp only [stripParenPass, hmatch]
      simp only [goodB, Bool.and_eq_true, Bool.not_eq_true']
      exact ⟨badHead_other (by decide) _, ih⟩
  | case3 c rest hmatch ih =>
      simp only [stripParenPass, hmatch]
      simp only [goodB, Bool.and_eq_true, Bool.not_eq_true']
      refine ⟨?_, ih⟩
      by_cases hc : c = '('
      case neg => exact badHead_other hc _
      case pos =>
          subst hc
          rcases hdwc : List.dropWhile (fun x => decide (x ≠ ')')) rest with _ | ⟨d, B⟩
          · have hall := all_of_dropWhile_nil hdwc
            have hfree : ∀ x ∈ stripParenPass rest, decide (x ≠ ')') = true := by
              intro x hx
              rcases mem_stripParenPass hx with h1 | h1
              · exact hall x h1
              · rw [h1]; decide
            rw [badHead_lparen, drop_takeWhile_length, dropWhile_nil_of_all hfree]
          · have hd : d = ')' := by
              rcases dropWhile_head_not (p := fun x => decide (x ≠ ')')) (l := rest) with
                hnil | ⟨e, r4, hcons, he⟩
              · rw [hnil] at hdwc
                cases hdwc
              · rw [hcons] at hdwc
                injection hdwc with he1 _
                rw [← he1]
                simpa using he
            subst hd
            have hbt : bodyHasTerm (List.takeWhile (fun x => decide (x ≠ ')')) rest) = false := by
              rcases tryMatch_lparen_none hmatch with hnil | hbt
              · rw [hnil] at hdwc
                cases hdwc
              · exact hbt
            have hsplitRest : rest =
                List.takeWhile (fun x => decide (x ≠ ')')) rest ++ ')' :: B := by
              conv_lhs => rw [← List.takeWhile_append_dropWhile (fun x => decide (x ≠ ')')) rest]
              rw [hdwc]
            have hfreeA : ∀ u ∈ List.takeWhile (fun x => decide (x ≠ ')')) rest, u ≠ ')' :=
              fun u hu => by simpa using mem_takeWhile_pred hu
            have hcopy : stripParenPass rest =
                List.takeWhile (fun x => decide (x ≠ ')')) rest ++ ')' :: stripParenPass B := by
              conv_lhs => rw [hsplitRest]
              exact stripParenPass_copy _ true B hfreeA hbt
            obtain ⟨hT, hD⟩ := takeWhile_append_all (p := fun x => decide (x ≠ ')'))
              (')' :: stripParenPass B) (fun u hu => by simpa using hfreeA u hu)
            rw [badHead_lparen, drop_takeWhile_length, hcopy, hD,
              List.dropWhile_cons_of_neg (by decide)]
            show bodyHasTerm (List.takeWhile (fun x => decide (x ≠ ')'))
              (List.takeWhile (fun x => decide (x ≠ ')')) rest ++ ')' :: stripParenPass B)) = false
            rw [hT, List.takeWhile_cons_of_neg (by decide), List.append_nil]
            exact hbt

/-- A match-free string is a fixed point of the qualifier-stripping scan. -/
theorem stripParenPass_of_goodB : ∀ {v : Str}, goodB v = true →
    stripParenPass v = v := by
  intro v
  induction v using stripParenPass.induct with
  | case1 => intro _; simp [stripParenPass]
  | case2 c rest n hmatch ih =>
      intro h
      exfalso
      obtain ⟨w, body, tail, hu, hw, hbody, hbt⟩ := tryMatch_decomp hmatch
      have hsuf : goodB ('(' :: (body ++ ')' :: tail)) = true := by
        rw [hu] at h
        exact goodB_append_right h
      have hbad : badHead ('(' :: (body ++ ')' :: tail)) = true := by
        obtain ⟨hT, hD⟩ := takeWhile_append_all (p := fun x => decide (x ≠ ')'))
          (')' :: tail) (fun u hu2 => by simpa using hbody u hu2)
        rw [badHead_lparen, drop_takeWhile_length, hD,
          List.dropWhile_cons_of_neg (by decide)]
        show bodyHasTerm (List.takeWhile (fun x => decide (x ≠ ')'))
          (body ++ ')' :: tail)) = true
        rw [hT, List.takeWhile_cons_of_neg (by decide), List.append_nil]
        exact hbt
      rw [goodB_not_badHead hsuf] at hbad
      cases hbad
  | case3 c rest hmatch ih =>
      intro h
      simp only [stripParenPass, hmatch]
      rw [ih (goodB_tail h)]

/-- Characters of the collapse output come from the input or are the
replacement space. -/
theorem mem_collapseWsAux : ∀ {v : Str} {b : Bool} {x : Char},
    x ∈ collapseWsAux b v → x ∈ v ∨ x = ' ' := by
  intro v
  induction v with
  | nil => intro b x hx; simp [collapseWsAux] at hx
  | cons c rest ih =>
      intro b x hx
      simp only [collapseWsAux] at hx
      by_cases hc : isSpaceChar c = true
      · rw [if_pos hc] at hx
        by_cases hh : headSpace rest = true
        · rw [if_pos hh] at hx
          rcases ih hx with h1 | h1
          · exact Or.inl (by simp [h1])
          · exact Or.inr h1
        · rw [if_neg hh] at hx
          rcases List.mem_cons.mp hx with hxe | hx2
          · cases b with
            | true => exact Or.inr (by simpa using hxe)
            | false => exact Or.inl (by simp [hxe])
          · rcases ih hx2 with h1 | h1
            · exact Or.inl (by simp [h1])
            · exact Or.inr h1
      · rw [if_neg hc] at hx
        rcases List.mem_cons.mp hx with hxe | hx2
        · exact Or.inl (by simp [hxe])
        · rcases ih hx2 with h1 | h1
          · exact Or.inl (by simp [h1])
          · exact Or.inr h1

/-- The collapse of a whitespace-headed string is whitespace-headed. -/
theorem headSpace_collapseWsAux : ∀ {v : Str} {b : Bool},
    headSpace v = true → headSpace (collapseWsAux b v) = true := by
  intro v
  induction v with
  | nil => intro b h; cases h
  | cons c rest ih =>
      intro b h
      have hc : isSpaceChar c = true := by simpa [headSpace] using h
      simp only [collapseWsAux, hc, if_true]
      by_cases hh : headSpace rest = true
      · rw [if_pos hh]
        exact ih hh
      · rw [if_neg hh]
        cases b with
        | true => simp [headSpace, isSpaceChar]
        | false => simp [headSpace, hc]

/-- The collapse scan splits at a non-whitespace character. -/
theorem collapseWsAux_append_nonspace : ∀ (A : Str) (b : Bool) {d : Char} (B : Str),
    isSpaceChar d = false →
    collapseWsAux b (A ++ d :: B) = collapseWsAux b A ++ d :: collapseWsAux false B := by
  intro A
  induction A with
  | nil =>
      intro b d B hd
      simp [collapseWsAux, hd]
  | cons a A2 ih =>
      intro b d B hd
      rw [List.cons_append]
      by_cases ha : isSpaceChar a = true
      · cases A2 with
        | nil =>
            simp [collapseWsAux, headSpace, ha, hd]
        | cons a2 A3 =>
            have hhseq : headSpace ((a2 :: A3) ++ d :: B) = headSpace (a2 :: A3) := by
              simp [headSpace, List.cons_append]
            by_cases hh : headSpace (a2 :: A3) = true
            · have hL : collapseWsAux b (a :: ((a2 :: A3) ++ d :: B))
                  = collapseWsAux true ((a2 :: A3) ++ d :: B) := by
                simp only [collapseWsAux]
                rw [if_pos ha, if_pos (by rw [hhseq]; exact hh)]
              have hR : collapseWsAux b (a :: a2 :: A3) = collapseWsAux true (a2 :: A3) := by
                simp only [collapseWsAux]
                rw [if_pos ha, if_pos hh]
              rw [hL, hR]
              exact ih true B hd
            · have hL : collapseWsAux b (a :: ((a2 :: A3) ++ d :: B))
                  = (if b then ' ' else a) :: collapseWsAux false ((a2 :: A3) ++ d :: B) := by
                simp only [collapseWsAux]
                rw [if_pos ha, if_neg (by rw [hhseq]; exact hh)]
              have hR : collapseWsAux b (a :: a2 :: A3)
                  = (if b then ' ' else a) :: collapseWsAux false (a2 :: A3) := by
                simp only [collapseWsAux]
                rw [if_pos ha, if_neg hh]
              rw [hL, hR, ih false B hd, List.cons_append]
      · have hL : collapseWsAux b (a :: (A2 ++ d :: B))
            = a :: collapseWsAux false (A2 ++ d :: B) := by
          simp only [collapseWsAux]
          rw [if_neg ha]
        have hR : collapseWsAux b (a :: A2) = a :: collapseWsAux false A2 := by
          simp only [collapseWsAux]
          rw [if_neg ha]
        rw [hL, hR, ih false B hd, List.cons_append]

/-- A qualifier term matched with its trailing word boundary in the collapse
output is matched with its boundary in the input. -/
theorem collapseWs_term_transfer : ∀ (A : Str) (b : Bool) (t : Str),
    (∀ p ∈ t, 97 ≤ p.toNat ∧ p.toNat ≤ 122) →
    ciStartsWith (collapseWsAux b A) t = true →
    (((collapseWsAux b A).drop t.length).isEmpty
      || !isWordChar (((collapseWsAux b A).drop t.length).headD ' ')) = true →
    ciStartsWith A t = true ∧
      ((A.drop t.length).isEmpty || !isWordChar ((A.drop t.length).headD ' ')) = true := by
  intro A
  induction A with
  | nil =>
      intro b t _ hci _
      cases t with
      | nil => exact ⟨rfl, by simp⟩
      | cons p ps =>
          rw [show collapseWsAux b [] = [] from rfl] at hci
          cases hci
  | cons a r ih =>
      intro b t hlet hci hbd
      by_cases ha : isSpaceChar a = true
      · by_cases hh : headSpace r = true
        · have hred : collapseWsAux b (a :: r) = collapseWsAux true r := by
            simp only [collapseWsAux]
            rw [if_pos ha, if_pos hh]
          rw [hred] at hci hbd
          cases t with
          | nil =>
              refine ⟨rfl, ?_⟩
              simp [space_not_word ha]
          | cons p ps =>
              obtain ⟨h97, h122⟩ := hlet p (by simp)
              have hhs : headSpace (collapseWsAux true r) = true := headSpace_collapseWsAux hh
              cases hout : collapseWsAux true r with
              | nil =>
                  rw [hout] at hci
                  cases hci
              | cons c0 out2 =>
                  rw [hout] at hci hhs
                  have hc0 : isSpaceChar c0 = true := by simpa [headSpace] using hhs
                  rw [ciStartsWith_space_letter hc0 h97 h122] at hci
                  cases hci
        · have hred : collapseWsAux b (a :: r)
              = (if b then ' ' else a) :: collapseWsAux false r := by
            simp only [collapseWsAux]
            rw [if_pos ha, if_neg hh]
          rw [hred] at hci hbd
          have he : isSpaceChar (if b then ' ' else a) = true := by
            cases b with
            | true => exact (by decide : isSpaceChar ' ' = true)
            | false => simpa using ha
          cases t with
          | nil =>
              refine ⟨rfl, ?_⟩
              simp [space_not_word ha]
          | cons p ps =>
              obtain ⟨h97, h122⟩ := hlet p (by simp)
              rw [ciStartsWith_space_letter he h97 h122] at hci
              cases hci
      · have hred : collapseWsAux b (a :: r) = a :: collapseWsAux false r := by
          simp only [collapseWsAux]
          rw [if_neg ha]
        rw [hred] at hci hbd
        cases t with
        | nil =>
            refine ⟨rfl, ?_⟩
            simpa using hbd
        | cons p ps =>
            simp only [ciStartsWith, Bool.and_eq_true] at hci
            obtain ⟨hlc, hci2⟩ := hci
            have hbd2 : (((collapseWsAux false r).drop ps.length).isEmpty
                || !isWordChar (((collapseWsAux false r).drop ps.length).headD ' ')) = true := by
              simpa only [List.length_cons, List.drop_succ_cons] using hbd
            obtain ⟨hciA, hbdA⟩ := ih false ps (fun q hq => hlet q (by simp [hq])) hci2 hbd2
            constructor
            · simp only [ciStartsWith, Bool.and_eq_true]
              exact ⟨hlc, hciA⟩
            · simpa only [List.length_cons, List.drop_succ_cons] using hbdA

/-- A bounded term found in the collapse output is found in the input. -/
theorem hasAux_collapseWsAux : ∀ (A : Str) (b g : Bool),
    hasBoundedTermAux g (collapseWsAux b A) = true → hasBoundedTermAux g A = true := by
  intro A
  induction A with
  | nil =>
      intro b g h
      rw [show collapseWsAux b [] = [] from rfl] at h
      cases h
  | cons c rest ih =>
      intro b g h
      by_cases hc : isSpaceChar c = true
      · by_cases hh : headSpace rest = true
        · have hred : collapseWsAux b (c :: rest) = collapseWsAux true rest := by
            simp only [collapseWsAux]
            rw [if_pos hc, if_pos hh]
          rw [hred] at h
          simp only [hasBoundedTermAux, Bool.or_eq_true]
          right
          rw [space_not_word hc, Bool.not_false]
          exact hasAux_flag_mono (ih true g h)
        · have hred : collapseWsAux b (c :: rest)
              = (if b then ' ' else c) :: collapseWsAux false rest := by
            simp only [collapseWsAux]
            rw [if_pos hc, if_neg hh]
          rw [hred] at h
          have he : isSpaceChar (if b then ' ' else c) = true := by
            cases b with
            | true => exact (by decide : isSpaceChar ' ' = true)
            | false => simpa using hc
          simp only [hasBoundedTermAux, Bool.or_eq_true, Bool.and_eq_true] at h
          rcases h with ⟨_, hth⟩ | hrest
          · rw [termHereOk_space he] at hth
            cases hth
          · rw [space_not_word he, Bool.not_false] at hrest
            simp only [hasBoundedTermAux, Bool.or_eq_true]
            right
            rw [space_not_word hc, Bool.not_false]
            exact ih false true hrest
      · have hred : collapseWsAux b (c :: rest) = c :: collapseWsAux false rest := by
          simp only [collapseWsAux]
          rw [if_neg hc]
        rw [hred] at h
        simp only [hasBoundedTermAux, Bool.or_eq_true, Bool.and_eq_true] at h ⊢
        rcases h with ⟨hg, hth⟩ | hrest
        · left
          refine ⟨hg, ?_⟩
          rw [termHereOk, List.any_eq_true] at hth ⊢
          obtain ⟨t, ht, hpred⟩ := hth
          refine ⟨t, ht, ?_⟩
          obtain ⟨hne, hlet⟩ := qualifierTerms_letters t ht
          cases t with
          | nil => exact absurd rfl hne
          | cons p ps =>
              simp only [Bool.and_eq_true] at hpred ⊢
              obtain ⟨hci, hbd⟩ := hpred
              simp only [ciStartsWith, Bool.and_eq_true] at hci
              obtain ⟨hlc, hci2⟩ := hci
              have hbd2 : (((collapseWsAux false rest).drop ps.length).isEmpty
                  || !isWordChar (((collapseWsAux false rest).drop ps.length).headD ' ')) = true := by
                simpa only [List.length_cons, List.drop_succ_cons] using hbd
              obtain ⟨hciA, hbdA⟩ := collapseWs_term_transfer rest false ps
                (fun q hq => hlet q (by simp [hq])) hci2 hbd2
              constructor
              · simp only [ciStartsWith, Bool.and_eq_true]
                exact ⟨hlc, hciA⟩
              · simpa only [List.length_cons, List.drop_succ_cons] using hbdA
        · right
          exact ih false _ hrest

/-- A term-free string collapses to a term-free string. -/
theorem hasAux_collapseWs_false {A : Str} {g b : Bool}
    (h : hasBoundedTermAux g A = false) :
    hasBoundedTermAux g (collapseWsAux b A) = false := by
  cases hx : hasBoundedTermAux g (collapseWsAux b A) with
  | false => rfl
  | true =>
      rw [hasAux_collapseWsAux A b g hx] at h
      cases h

/-- Collapsing whitespace preserves match-freeness. -/
theorem goodB_collapseWsAux : ∀ (z : Str) (b : Bool), goodB z = true →
    goodB (collapseWsAux b z) = true := by
  intro z
  induction z with
  | nil => intro b _; rfl
  | cons c rest ih =>
      intro b h
      have hrest := goodB_tail h
      by_cases hc : isSpaceChar c = true
      · by_cases hh : headSpace rest = true
        · have hred : collapseWsAux b (c :: rest) = collapseWsAux true rest := by
            simp only [collapseWsAux]
            rw [if_pos hc, if_pos hh]
          rw [hred]
          exact ih true hrest
        · have hred : collapseWsAux b (c :: rest)
              = (if b then ' ' else c) :: collapseWsAux false rest := by
            simp only [collapseWsAux]
            rw [if_pos hc, if_neg hh]
          rw [hred]
          have he : isSpaceChar (if b then ' ' else c) = true := by
            cases b with
            | true => exact (by decide : isSpaceChar ' ' = true)
            | false => simpa using hc
          simp only [goodB, Bool.and_eq_true, Bool.not_eq_true']
          exact ⟨badHead_other (space_ne_lparen he) _, ih false hrest⟩
      · have hred : collapseWsAux b (c :: rest) = c :: collapseWsAux false rest := by
          simp only [collapseWsAux]
          rw [if_neg hc]
        rw [hred]
        simp only [goodB, Bool.and_eq_true, Bool.not_eq_true']
        refine ⟨?_, ih false hrest⟩
        by_cases hcp : c = '('
        · subst hcp
          have hbadin : badHead ('(' :: rest) = false := goodB_not_badHead h
          rcases hdwc : List.dropWhile (fun x => decide (x ≠ ')')) rest with _ | ⟨d, B⟩
          · have hall := all_of_dropWhile_nil hdwc
            have hfree : ∀ x ∈ collapseWsAux false rest, decide (x ≠ ')') = true := by
              intro x hx
              rcases mem_collapseWsAux hx with h1 | h1
              · exact hall x h1
              · rw [h1]; decide
            rw [badHead_lparen, drop_takeWhile_length, dropWhile_nil_of_all hfree]
          · have hd : d = ')' := by
              rcases dropWhile_head_not (p := fun x => decide (x ≠ ')')) (l := rest) with
                hnil | ⟨e, r4, hcons, he2⟩
              · rw [hnil] at hdwc
                cases hdwc
              · rw [hcons] at hdwc
                injection hdwc with he1 _
                rw [← he1]
                simpa using he2
            subst hd
            have hbtin : bodyHasTerm (List.takeWhile (fun x => decide (x ≠ ')')) rest) = false := by
              rw [badHead_lparen, drop_takeWhile_length, hdwc] at hbadin
              exact hbadin
            have hsplitRest : rest =
                List.takeWhile (fun x => decide (x ≠ ')')) rest ++ ')' :: B := by
              conv_lhs => rw [← List.takeWhile_append_dropWhile (fun x => decide (x ≠ ')')) rest]
              rw [hdwc]
            have hcw : collapseWsAux false rest
                = collapseWsAux false (List.takeWhile (fun x => decide (x ≠ ')')) rest)
                  ++ ')' :: collapseWsAux false B := by
              conv_lhs => rw [hsplitRest]
              exact collapseWsAux_append_nonspace _ false B (by decide)
            have hfreeCA : ∀ u ∈ collapseWsAux false
                (List.takeWhile (fun x => decide (x ≠ ')')) rest), decide (u ≠ ')') = true := by
              intro u hu
              rcases mem_collapseWsAux hu with h1 | h1
              · exact mem_takeWhile_pred h1
              · rw [h1]; decide
            obtain ⟨hT, hD⟩ := takeWhile_append_all (p := fun x => decide (x ≠ ')'))
              (')' :: collapseWsAux false B) hfreeCA
            rw [badHead_lparen, drop_takeWhile_length, hcw, hD,
              List.dropWhile_cons_of_neg (by decide)]
            show bodyHasTerm (List.takeWhile (fun x => decide (x ≠ ')'))
              (collapseWsAux false (List.takeWhile (fun x => decide (x ≠ ')')) rest)
                ++ ')' :: collapseWsAux false B)) = false
            rw [hT, List.takeWhile_cons_of_neg (by decide), List.append_nil]
            exact hasAux_collapseWs_false hbtin
        · exact badHead_other hcp _

/-- Stripping leading and trailing whitespace preserves match-freeness. -/
theorem goodB_pyStrip {l : Str} (h : goodB l = true) : goodB (pyStrip l) = true := by
  unfold pyStrip
  obtain ⟨v, hv⟩ := dropTrailing_prefix isSpaceChar (l.dropWhile isSpaceChar)
  have hd : goodB (l.dropWhile isSpaceChar) = true := goodB_dropWhile h
  rw [hv] at hd
  exact goodB_append_left hd

/-- C8: `strip_qualifiers` (`main.py` `_strip_title_parenthetical_terms`) is
idempotent: for every input string, applying it twice gives the same result
as applying it once. -/
theorem c8_strip_qualifiers_idempotent (x : Str) :
    strip_title_parenthetical_terms (strip_title_parenthetical_terms x)
      = strip_title_parenthetical_terms x := by
  by_cases hx : x = []
  · subst hx
    rfl
  · have hy : strip_title_parenthetical_terms x
        = pyStrip (collapseWsPass (stripParenPass x)) := by
      unfold strip_title_parenthetical_terms
      rw [if_neg hx]
    rw [hy]
    by_cases hyn : pyStrip (collapseWsPass (stripParenPass x)) = []
    · rw [hyn]
      rfl
    · have hgood : goodB (pyStrip (collapseWsPass (stripParenPass x))) = true :=
        goodB_pyStrip (goodB_collapseWsAux _ false (goodB_stripParenPass _))
      have hn2 : noTwoB (pyStrip (collapseWsPass (stripParenPass x))) = true :=
        noTwoB_pyStrip (noTwoB_collapseWsAux _ false)
      unfold strip_title_parenthetical_terms
      rw [if_neg hyn, stripParenPass_of_goodB hgood]
      rw [show collapseWsPass (pyStrip (collapseWsPass (stripParenPass x)))
          = pyStrip (collapseWsPass (stripParenPass x)) from
          collapseWsAux_of_noTwoB _ hn2]
      exact pyStrip_idem _

end HitPlay
